import Mathlib

/-!
Verification development for the copado-mcp server.

The embedding below translates `parseChangesToCopadoFormat`, `parseUserStoryIds`,
the status classification of `checkJobStatusTool.execute`, the commit-message
resolution of `commitTool.execute`, and the authentication-token resolution of
all four tools into Lean, working over `List Char` for the free-text scanning.

The JavaScript regular-expression passes of `parseChangesToCopadoFormat` are
embedded at the token level: each of the five component patterns only ever
matches at word-run boundaries (a `\s+` can never bridge a non-whitespace gap
character, and an alternation word followed by `\b` or `\s` must coincide with
a whole maximal word run), so a faithful model scans the list of maximal
word-character runs together with the information whether the gap following a
run consists of whitespace only.
-/

namespace Copado

/-- `[A-Za-z0-9_]`, the word-character class of the source regexes. -/
def isWordChar (c : Char) : Bool := c.isUpper || c.isLower || c.isDigit || c == '_'

/-- Whitespace as matched by `\s` (ASCII portion). -/
def isWsChar (c : Char) : Bool :=
  c == ' ' || c == '\t' || c == '\n' || c == '\r' || c == Char.ofNat 11 || c == Char.ofNat 12

/-- The double-quote character. -/
def quoteD : Char := Char.ofNat 34

/-- The single-quote character. -/
def quoteS : Char := Char.ofNat 39

/-- The character class `["']` of the quoted-name pattern. -/
def isQuoteChar (c : Char) : Bool := c == quoteD || c == quoteS

/-- `toLowerCase` on a character list (ASCII). -/
def lowerL (cs : List Char) : List Char := cs.map Char.toLower

/-- `toLowerCase` on a string (ASCII). -/
def lowerStr (s : String) : String := String.mk (lowerL s.toList)

/-- Split off the maximal prefix of characters satisfying `p` (a greedy run). -/
def takeRun (p : Char → Bool) : List Char → List Char × List Char
  | [] => ([], [])
  | c :: cs =>
    if p c then
      let r := takeRun p cs
      (c :: r.1, r.2)
    else ([], c :: cs)

/-- One maximal word-character run of the description: its start index, its
characters, and whether the gap that follows it consists of whitespace only
(so that a `\s+` of a pattern can bridge it to the next run). -/
structure Tok where
  pos : Nat
  word : List Char
  wsAfter : Bool
deriving DecidableEq, Repr

/-- A gap bridgeable by `\s+`: nonempty and all whitespace. -/
def mkWsAfter (gap : List Char) : Bool := !gap.isEmpty && gap.all isWsChar

/-- Fuel-driven tokenizer: skip non-word characters, take a word run, record
the following gap. Each step consumes at least one character. -/
def tokenizeF : Nat → Nat → List Char → List Tok
  | 0, _, _ => []
  | fuel + 1, pos, cs =>
    let pre := takeRun (fun c => !isWordChar c) cs
    match pre.2 with
    | [] => []
    | _ :: _ =>
      let w := takeRun isWordChar pre.2
      let gap := takeRun (fun c => !isWordChar c) w.2
      ⟨pos + pre.1.length, w.1, mkWsAfter gap.1⟩ ::
        tokenizeF fuel (pos + pre.1.length + w.1.length + gap.1.length) gap.2

/-- The maximal word runs of a description, with positions and gap information. -/
def tokenize (cs : List Char) : List Tok := tokenizeF (cs.length + 1) 0 cs

/-- The nine type keywords of the alternation
`(class|trigger|component|flow|object|field|layout|profile|label)`. -/
def nineTypeWords : List (List Char) :=
  ["class", "trigger", "component", "flow", "object", "field", "layout", "profile",
   "label"].map String.toList

/-- Case-insensitive membership of a word run in the type-keyword alternation. -/
def isNine (w : List Char) : Bool := nineTypeWords.contains (lowerL w)

/-- Whether a run starts with a letter (`[A-Z]` under the `i` flag). -/
def alphaStart : List Char → Bool
  | [] => false
  | c :: _ => c.isUpper || c.isLower

/-- Whether a run starts with an uppercase letter (`[A-Z]` without the `i` flag). -/
def upperStart : List Char → Bool
  | [] => false
  | c :: _ => c.isUpper

/-- The `typeMap` of `parseChangesToCopadoFormat`, in source order. -/
def typeMap : List (List Char × String) :=
  [("apex class", "ApexClass"), ("class", "ApexClass"),
   ("apex trigger", "ApexTrigger"), ("trigger", "ApexTrigger"),
   ("lightning component", "LightningComponentBundle"), ("lwc", "LightningComponentBundle"),
   ("component", "LightningComponentBundle"),
   ("flow", "Flow"), ("custom object", "CustomObject"), ("object", "CustomObject"),
   ("custom field", "CustomField"), ("field", "CustomField"), ("layout", "Layout"),
   ("permission set", "PermissionSet"), ("profile", "Profile"),
   ("custom label", "CustomLabel"), ("label", "CustomLabel"),
   ("validation rule", "ValidationRule"), ("workflow rule", "WorkflowRule"),
   ("email template", "EmailTemplate"), ("report", "Report"),
   ("dashboard", "Dashboard")].map (fun p => (p.1.toList, p.2))

/-- `key in typeMap` followed by `typeMap[key]`. -/
def typeMapLookup (k : List Char) : Option String :=
  (typeMap.find? (fun p => p.1 == k)).map (fun p => p.2)

/-- The `actionMap` of `parseChangesToCopadoFormat`, in source order. -/
def actionMap : List (List Char × String) :=
  [("added", "Add"), ("created", "Add"), ("new", "Add"), ("modified", "Add"),
   ("changed", "Add"), ("updated", "Add"), ("edited", "Add"),
   ("deleted", "Delete"), ("removed", "Delete")].map (fun p => (p.1.toList, p.2))

/-- The `excludeWords` set of `parseChangesToCopadoFormat`. -/
def excludeWords : List (List Char) :=
  ["the", "and", "or", "but", "in", "on", "at", "to", "for", "of", "with", "by",
   "made", "some", "changes", "also", "gave", "access", "it", "them", "this", "that",
   "add", "modify", "delete", "user", "story", "updated", "created", "modified",
   "changed", "new", "old", "existing", "current", "previous", "next", "first",
   "last"].map String.toList

/-- JavaScript `String.prototype.includes`. -/
def containsSub (needle hay : List Char) : Bool :=
  hay.tails.any (fun t => needle.isPrefixOf t)

/-- Default-action extraction: the first `actionMap` entry (in source order)
whose keyword occurs anywhere in the lower-cased description; `Add` otherwise. -/
def extractDefaultAction (cs : List Char) : String :=
  match actionMap.find? (fun p => containsSub p.1 (lowerL cs)) with
  | some p => p.2
  | none => "Add"

/-- Pattern 1, `\b([A-Z][A-Za-z0-9_]*)\s+(class|...)\b` with flags `gi`:
an alpha-starting run, a whitespace gap, a type-keyword run. -/
def p1Scan : List Tok → List (List Char × List Char)
  | t0 :: t1 :: rest =>
    if alphaStart t0.word && t0.wsAfter && isNine t1.word then
      (t0.word, t1.word) :: p1Scan rest
    else p1Scan (t1 :: rest)
  | _ => []

/-- Pattern 2, `\b(class|...)\s+([A-Z][A-Za-z0-9_]*)\b` with flags `gi`. -/
def p2Scan : List Tok → List (List Char × List Char)
  | t0 :: t1 :: rest =>
    if isNine t0.word && t0.wsAfter && alphaStart t1.word then
      (t0.word, t1.word) :: p2Scan rest
    else p2Scan (t1 :: rest)
  | _ => []

/-- The `apex`-prefixed branch of pattern 3 at three consecutive runs. -/
def p3ApexCond (t0 t1 t2 : Tok) : Bool :=
  lowerL t0.word == "apex".toList && t0.wsAfter && isNine t1.word && t1.wsAfter &&
    alphaStart t2.word

/-- The prefix-less branch of pattern 3 (identical to pattern 2's condition). -/
def p3PlainCond (t0 t1 : Tok) : Bool :=
  isNine t0.word && t0.wsAfter && alphaStart t1.word

/-- Pattern 3, `\b(?:apex\s+)?(class|...)\s+([A-Z][A-Za-z0-9_]*)\b` with `gi`:
the optional greedy `apex` prefix is tried first at each position. -/
def p3Scan : List Tok → List (List Char × List Char)
  | t0 :: t1 :: t2 :: rest =>
    if p3ApexCond t0 t1 t2 then (t1.word, t2.word) :: p3Scan rest
    else if p3PlainCond t0 t1 then (t0.word, t1.word) :: p3Scan (t2 :: rest)
    else p3Scan (t1 :: t2 :: rest)
  | [t0, t1] => if p3PlainCond t0 t1 then [(t0.word, t1.word)] else []
  | _ => []

/-- Pattern 4, `\b([A-Z][A-Za-z0-9_]*)\s+apex\s+(class|trigger)\b` with `gi`. -/
def p4Scan : List Tok → List (List Char × List Char)
  | t0 :: t1 :: t2 :: rest =>
    if alphaStart t0.word && t0.wsAfter && lowerL t1.word == "apex".toList && t1.wsAfter &&
        (lowerL t2.word == "class".toList || lowerL t2.word == "trigger".toList) then
      (t0.word, t2.word) :: p4Scan rest
    else p4Scan (t1 :: t2 :: rest)
  | _ => []

/-- Pattern 5, `["']([A-Z][A-Za-z0-9_]+)["']` (case-sensitive): a quote, an
uppercase letter, at least one more word character, a quote. On failure the
scan advances one character; on success it resumes after the closing quote. -/
def p5ScanF : Nat → List Char → List (List Char)
  | 0, _ => []
  | _ + 1, [] => []
  | fuel + 1, c :: cs =>
    if isQuoteChar c then
      match cs with
      | [] => []
      | d :: cs2 =>
        if d.isUpper then
          let r := takeRun isWordChar cs2
          match r.2 with
          | q :: rest2 =>
            if !r.1.isEmpty && isQuoteChar q then (d :: r.1) :: p5ScanF fuel rest2
            else p5ScanF fuel cs
          | [] => p5ScanF fuel cs
        else p5ScanF fuel cs
    else p5ScanF fuel cs

/-- All pattern-5 matches of a description. -/
def p5Scan (cs : List Char) : List (List Char) := p5ScanF (cs.length + 1) cs

/-- Name/type disposition for a two-capture-group match: if the second group's
lower-case value is a `typeMap` key it is the type and the first group the
name; otherwise the roles are swapped if the first group is a key; otherwise
the match is skipped. -/
def dispose (first second : List Char) : Option (List Char × String) :=
  match typeMapLookup (lowerL second) with
  | some ty => some (first, ty)
  | none =>
    match typeMapLookup (lowerL first) with
    | some ty => some (second, ty)
    | none => none

/-- The component-name validation of the collection step: nonempty of length
greater than one, not an excluded word, and matching `^[A-Z][A-Za-z0-9_]*$`. -/
def validName (n : List Char) : Bool :=
  decide (n.length > 1) && !excludeWords.contains (lowerL n) && upperStart n &&
    n.all isWordChar

/-- The accepted `(name, type)` pairs produced by the five patterns, in their
source order, after disposition and validation. -/
def acceptedPairs (cs : List Char) : List (List Char × String) :=
  let toks := tokenize cs
  ((p1Scan toks ++ p2Scan toks ++ p3Scan toks ++ p4Scan toks).filterMap
      (fun p => dispose p.1 p.2) ++
    (p5Scan cs).map (fun n => (n, "ApexClass"))).filter (fun p => validName p.1)

/-- JavaScript `Map.prototype.set`: overwrite the value in place if the key is
present, append otherwise. -/
def jsSet (m : List (List Char × String)) (k : List Char) (v : String) :
    List (List Char × String) :=
  if m.any (fun p => p.1 == k) then
    m.map (fun p => if p.1 == k then (p.1, v) else p)
  else m ++ [(k, v)]

/-- Insert a list of pairs into an initially empty JavaScript `Map`. -/
def jsMapOf (ps : List (List Char × String)) : List (List Char × String) :=
  ps.foldl (fun m p => jsSet m p.1 p.2) []

/-- The fallback pattern `\b([A-Z][A-Za-z0-9_]{2,})\b` (case-sensitive):
maximal word runs of length at least three starting with an uppercase letter. -/
def fallbackCandidates (cs : List Char) : List (Nat × List Char) :=
  (tokenize cs).filterMap (fun t =>
    if upperStart t.word && decide (t.word.length ≥ 3) then some (t.pos, t.word) else none)

/-- The fixed extra exclusion list of the fallback pass. -/
def fallbackExcluded : List (List Char) :=
  ["Add", "Modify", "Delete", "User", "Story"].map String.toList

/-- The fallback pass: filter candidates, then infer a type from the 20
characters of context before and after the candidate. -/
def fallbackAccept (cs : List Char) : List (List Char × String) :=
  (fallbackCandidates cs).filterMap (fun c =>
    if !excludeWords.contains (lowerL c.2) && decide (c.2.length > 2) &&
        !fallbackExcluded.contains c.2 then
      let beforeText := lowerL ((cs.take c.1).drop (c.1 - 20))
      let afterText := lowerL ((cs.drop (c.1 + c.2.length)).take 20)
      let contextText := beforeText ++ [' '] ++ afterText
      let ty :=
        match typeMap.find? (fun p => containsSub p.1 contextText) with
        | some p => p.2
        | none => "ApexClass"
      some (c.2, ty)
    else none)

/-- One unit of committed work, serialized as `{a, n, t, m}` by the source. -/
structure ChangeRecord where
  a : String
  n : String
  t : String
  m : String
deriving DecidableEq, Repr

/-- The constant default module path. -/
def defaultModule : String := "force-app/main/default"

/-- The `foundComponents` map at the end of both extraction passes: the
pattern-pass map when it is nonempty, the fallback-pass map otherwise. -/
def foundComponentsMap (cs : List Char) : List (List Char × String) :=
  if jsMapOf (acceptedPairs cs) = [] then jsMapOf (fallbackAccept cs)
  else jsMapOf (acceptedPairs cs)

/-- `parseChangesToCopadoFormat`: default action, pattern pass, fallback pass,
synthetic placeholder when both passes accept nothing. -/
def parseChangesToCopadoFormat (cs : List Char) : List ChangeRecord :=
  if foundComponentsMap cs = [] then
    [⟨extractDefaultAction cs, "UnknownComponent", "ApexClass", defaultModule⟩]
  else
    (foundComponentsMap cs).map
      (fun p => ⟨extractDefaultAction cs, String.mk p.1, p.2, defaultModule⟩)

/-!
`parseUserStoryIds` of the promote tool: strip `[`, `]`, `"`, `'`; replace
every `\s+and\s+` (case-insensitive) by a comma; split on commas; trim; drop
empty pieces.
-/

/-- The character class `[\[\]"']` removed by the first `replace`. -/
def isBracketQuote (c : Char) : Bool :=
  c == '[' || c == ']' || c == quoteD || c == quoteS

/-- `.replace(/[\[\]"']/g, '')`. -/
def stripChars (cs : List Char) : List Char := cs.filter (fun c => !isBracketQuote c)

/-- Attempt to match `\s+and\s+` (case-insensitive) at the head of the list;
on success return the remainder after the greedily matched trailing run. -/
def andMatchAt (cs : List Char) : Option (List Char) :=
  let r1 := takeRun isWsChar cs
  if r1.1.isEmpty then none
  else
    match r1.2 with
    | a :: n :: d :: r2 =>
      if a.toLower == 'a' && n.toLower == 'n' && d.toLower == 'd' then
        let r3 := takeRun isWsChar r2
        if r3.1.isEmpty then none else some r3.2
      else none
    | _ => none

/-- Fuel-driven `.replace(/\s+and\s+/gi, ',')`: at each position try the match;
on success emit a comma and resume after the match, otherwise copy one
character. -/
def replaceAndF : Nat → List Char → List Char
  | 0, _ => []
  | _ + 1, [] => []
  | fuel + 1, c :: cs =>
    match andMatchAt (c :: cs) with
    | some rest => ',' :: replaceAndF fuel rest
    | none => c :: replaceAndF fuel cs

/-- `.replace(/\s+and\s+/gi, ',')`. -/
def replaceAnd (cs : List Char) : List Char := replaceAndF cs.length cs

/-- `.split(',')` (always at least one piece). -/
def splitOnComma : List Char → List (List Char)
  | [] => [[]]
  | c :: cs =>
    if c == ',' then [] :: splitOnComma cs
    else
      match splitOnComma cs with
      | [] => [[c]]
      | p :: ps => (c :: p) :: ps

/-- JavaScript `String.prototype.trim` (whitespace at both ends). -/
def trimL (cs : List Char) : List Char :=
  ((cs.dropWhile isWsChar).reverse.dropWhile isWsChar).reverse

/-- `parseUserStoryIds` of the promote tool. -/
def parseUserStoryIds (cs : List Char) : List (List Char) :=
  (((splitOnComma (replaceAnd (stripChars cs)))).map trimL).filter
    (fun p => decide (p.length > 0))

/-- `.join(",")`. -/
def joinComma : List (List Char) → List Char
  | [] => []
  | [p] => p
  | p :: ps => p ++ ',' :: joinComma ps

/-- Modelled from the spec: the reference identifier-list algorithm of §4.3,
with the separator scan (comma, or whitespace-surrounded `and`) producing the
pieces in a single pass instead of a replacement followed by a split. -/
def refSplitF : Nat → List Char → List (List Char)
  | 0, _ => [[]]
  | _ + 1, [] => [[]]
  | fuel + 1, c :: cs =>
    match andMatchAt (c :: cs) with
    | some rest => [] :: refSplitF fuel rest
    | none =>
      if c == ',' then [] :: refSplitF fuel cs
      else
        match refSplitF fuel cs with
        | [] => [[c]]
        | p :: ps => (c :: p) :: ps

/-- Modelled from the spec: the full reference identifier-list parser. -/
def refParseUserStoryIds (cs : List Char) : List (List Char) :=
  (((refSplitF (stripChars cs).length (stripChars cs))).map trimL).filter
    (fun p => decide (p.length > 0))

/-!
Status classification of `checkJobStatusTool.execute`: the extracted status
string is lower-cased and switched over a fixed dictionary into one of five
buckets, each carrying an emoji, a color and a canned next-step message.
-/

/-- One classification bucket: status emoji, color, next steps. -/
structure StatusReport where
  emoji : String
  color : String
  nextSteps : String
deriving DecidableEq, Repr

/-- The `completed`/`success` bucket. -/
def completedReport : StatusReport :=
  ⟨"✅", "GREEN", "🎉 Deployment completed successfully! Check your destination org."⟩

/-- The `failed`/`error` bucket. -/
def failedReport : StatusReport :=
  ⟨"❌", "RED", "🔍 Check the error details and retry if needed."⟩

/-- The `in progress`/`running` bucket. -/
def inProgressReport : StatusReport :=
  ⟨"🔄", "BLUE", "⏰ Deployment is still running. Check again in a few minutes."⟩

/-- The `not started`/`queued` bucket. -/
def queuedReport : StatusReport :=
  ⟨"⏳", "YELLOW", "📋 Job is queued and will start shortly."⟩

/-- The default bucket for any unrecognized status. -/
def unknownReport : StatusReport :=
  ⟨"❔", "GRAY", "🔍 Unknown status. Check Copado org for details."⟩

/-- The `switch (status.toLowerCase())` of `checkJobStatusTool.execute`. -/
def classifyJobStatus (status : String) : StatusReport :=
  let ls := lowerStr status
  if ls = "completed" ∨ ls = "success" then completedReport
  else if ls = "failed" ∨ ls = "error" then failedReport
  else if ls = "in progress" ∨ ls = "running" then inProgressReport
  else if ls = "not started" ∨ ls = "queued" then queuedReport
  else unknownReport

/-!
Authentication-token resolution and webhook request construction. A JavaScript
`string | undefined` value is an `Option String`; truthiness of a string is
"present and nonempty".
-/

/-- JavaScript truthiness of a `string | undefined` value. -/
def jsStrTruthy : Option String → Bool
  | none => false
  | some s => !(s = "")

/-- JavaScript `a || b` on a `string | undefined` and a fallback. -/
def jsOrOpt (a b : Option String) : Option String :=
  if jsStrTruthy a then a else b

/-- JavaScript `a || b` where `b` is a plain string. -/
def jsOrStr (a : Option String) (b : String) : String :=
  match a with
  | none => b
  | some s => if s = "" then b else s

/-- `commitTool.execute`: `const authToken = apiKey` (the environment value is
never consulted). -/
def commitAuthToken (apiKey envKey : Option String) : Option String := apiKey

/-- `promoteTool.execute`: `const authToken = apiKey` (the environment value is
never consulted). -/
def promoteAuthToken (apiKey envKey : Option String) : Option String := apiKey

/-- `deployPromotionTool.execute`:
`const authToken = process.env.COPADO_API_KEY` (the parameter is ignored). -/
def deployAuthToken (apiKey envKey : Option String) : Option String := envKey

/-- `checkJobStatusTool.execute`:
`const authToken = apiKey || process.env.COPADO_API_KEY`. -/
def checkJobStatusAuthToken (apiKey envKey : Option String) : Option String :=
  jsOrOpt apiKey envKey

/-- The payload of one of the four webhook operations. -/
inductive PayloadData where
  | commit (userStoryId : String) (changes : List ChangeRecord) (message : String)
  | promotion (userStoryIds : List String) (executeDeployment deploymentDryRun : Bool)
      (sourceEnvironmentId : String)
  | promotionDeployment (promotionId : String)
  | checkStatus (jobexecutionid : String)
deriving DecidableEq, Repr

/-- A webhook request envelope `{action, key, payload}` with its endpoint. -/
structure WebhookRequest where
  url : String
  action : String
  key : String
  payload : PayloadData
deriving DecidableEq, Repr

/-- The outcome of a tool execution up to the suspension point of the HTTP
call: either an error-flagged result produced before any request, or the
request that is submitted. -/
inductive ToolOutcome where
  | errorResult (message : String)
  | requestSent (req : WebhookRequest)
deriving DecidableEq, Repr

/-- The error message of the missing-token precondition failure. -/
def apiKeyRequiredMsg : String :=
  "API key is required. Provide it as a parameter or set COPADO_API_KEY environment variable."

/-- The commit request of `commitTool.execute`: parsed changes and the
resolved commit message, `commitMessage || `Commit changes: ${...}``. -/
def commitRequest (userStoryId changesDescription : String)
    (commitMessage : Option String) (authToken : String) : WebhookRequest :=
  ⟨"https://app-api.copado.com/json/v1/webhook/mcwebhook/commit", "Commit", authToken,
    .commit userStoryId (parseChangesToCopadoFormat changesDescription.toList)
      (jsOrStr commitMessage ("Commit changes: " ++ changesDescription))⟩

/-- `commitTool.execute` up to the HTTP call. -/
def commitExecute (userStoryId changesDescription : String)
    (commitMessage apiKey envKey : Option String) : ToolOutcome :=
  match commitAuthToken apiKey envKey with
  | some tok =>
    if tok = "" then .errorResult apiKeyRequiredMsg
    else .requestSent (commitRequest userStoryId changesDescription commitMessage tok)
  | none => .errorResult apiKeyRequiredMsg

/-- `promoteTool.execute` up to the HTTP call (including the empty-identifier
precondition). -/
def promoteExecute (userStoryIds : String) (executeDeployment deploymentDryRun : Bool)
    (apiKey envKey : Option String) : ToolOutcome :=
  match promoteAuthToken apiKey envKey with
  | some tok =>
    if tok = "" then .errorResult apiKeyRequiredMsg
    else
      let parsed := (parseUserStoryIds userStoryIds.toList).map String.mk
      if parsed.isEmpty then
        .errorResult "No valid user story IDs provided. Please provide at least one user story ID."
      else
        .requestSent ⟨"https://app-api.copado.com/json/v1/webhook/mcwebhook/promotion",
          "Promotion", tok,
          .promotion parsed executeDeployment deploymentDryRun "a0c8c00000LpAxEAAV"⟩
  | none => .errorResult apiKeyRequiredMsg

/-- `deployPromotionTool.execute` up to the HTTP call. -/
def deployPromotionExecute (promotionId : String) (apiKey envKey : Option String) :
    ToolOutcome :=
  match deployAuthToken apiKey envKey with
  | some tok =>
    if tok = "" then .errorResult apiKeyRequiredMsg
    else
      .requestSent ⟨"https://app-api.copado.com/json/v1/webhook/mcwebhook/promotiondeployment",
        "PromotionDeployment", tok, .promotionDeployment promotionId⟩
  | none => .errorResult apiKeyRequiredMsg

/-- `checkJobStatusTool.execute` up to the HTTP call. -/
def checkJobStatusExecute (jobExecutionId : String) (apiKey envKey : Option String) :
    ToolOutcome :=
  match checkJobStatusAuthToken apiKey envKey with
  | some tok =>
    if tok = "" then .errorResult apiKeyRequiredMsg
    else
      .requestSent ⟨"https://app-api.copado.com/json/v1/webhook/mcwebhook/checkStatusAction",
        "CheckStatusAction", tok, .checkStatus jobExecutionId⟩
  | none => .errorResult apiKeyRequiredMsg

/-- The message field of a commit payload. -/
def requestMessage : WebhookRequest → Option String
  | ⟨_, _, _, .commit _ _ msg⟩ => some msg
  | _ => none

/-- The key used by a submitted request, if one was submitted. -/
def outcomeKey : ToolOutcome → Option String
  | .errorResult _ => none
  | .requestSent req => some req.key

/-- The type a pattern pass last assigned to a name in a list of accepted
pairs (the value a JavaScript `Map` retains). -/
def lastAssigned (k : List Char) (ps : List (List Char × String)) : Option String :=
  (ps.reverse.find? (fun p => p.1 == k)).map (fun p => p.2)

/-- An occurrence of `\s+and\s+` (case-insensitive) at the head of a list:
the decomposition witnessing a match of the separator regex. -/
def PatAt (cs : List Char) : Prop :=
  ∃ w1 a n d w2 r, cs = w1 ++ a :: n :: d :: (w2 ++ r) ∧
    w1 ≠ [] ∧ (∀ c ∈ w1, isWsChar c) ∧
    a.toLower = 'a' ∧ n.toLower = 'n' ∧ d.toLower = 'd' ∧
    w2 ≠ [] ∧ (∀ c ∈ w2, isWsChar c)

/-- No suffix of the list carries a `\s+and\s+` occurrence. -/
def NoPat (cs : List Char) : Prop := ∀ s, s <:+ cs → ¬ PatAt s

/-- Characters that can occur inside a `\s+and\s+` occurrence. -/
def isPatChar (c : Char) : Bool :=
  isWsChar c || c.toLower == 'a' || c.toLower == 'n' || c.toLower == 'd'

/-!
Lemmas about the JavaScript `Map` model.
-/

theorem stringMk_beq (a b : List Char) : (String.mk a == String.mk b) = (a == b) := by
  by_cases hab : a = b
  · subst hab; simp
  · have h1 : (a == b) = false := beq_eq_false_iff_ne.mpr hab
    have h2 : (String.mk a == String.mk b) = false :=
      beq_eq_false_iff_ne.mpr (fun hc => hab (by cases hc; rfl))
    rw [h1, h2]

theorem jsSet_ite_fst (p : List Char × String) (k2 : List Char) (v : String) :
    (if p.1 == k2 then (p.1, v) else p).1 = p.1 := by
  by_cases hp : p.1 == k2
  · rw [if_pos hp]
  · rw [if_neg hp]

theorem jsSet_any_key (m : List (List Char × String)) (k2 : List Char) (v : String)
    (k : List Char) :
    (jsSet m k2 v).any (fun p => p.1 == k) =
      (m.any (fun p => p.1 == k) || (k2 == k)) := by
  unfold jsSet
  by_cases h : m.any (fun p => p.1 == k2)
  · rw [if_pos h, List.any_map]
    have hcomp : ((fun p : List Char × String => p.1 == k) ∘
        (fun q : List Char × String => if q.1 == k2 then (q.1, v) else q)) =
        (fun p : List Char × String => p.1 == k) := by
      funext p
      simp only [Function.comp_apply]
      rw [jsSet_ite_fst]
    rw [hcomp]
    by_cases hk : k2 = k
    · subst hk
      rw [h]
      simp
    · rw [beq_eq_false_iff_ne.mpr hk, Bool.or_false]
  · rw [if_neg h, List.any_append]
    simp

theorem jsMapOf_append_one (ps : List (List Char × String)) (q : List Char × String) :
    jsMapOf (ps ++ [q]) = jsSet (jsMapOf ps) q.1 q.2 := by
  simp [jsMapOf, List.foldl_append]

theorem jsMapOf_any_key (ps : List (List Char × String)) (k : List Char) :
    (jsMapOf ps).any (fun p => p.1 == k) = ps.any (fun p => p.1 == k) := by
  induction ps using List.reverseRecOn with
  | nil => rfl
  | append_singleton ps q ih =>
    rw [jsMapOf_append_one, jsSet_any_key, ih, List.any_append, List.any_cons,
      List.any_nil, Bool.or_false]

theorem jsSet_countP_of_mem (m : List (List Char × String)) (k2 : List Char) (v : String)
    (k : List Char) (h : m.any (fun p => p.1 == k2) = true) :
    (jsSet m k2 v).countP (fun p => p.1 == k) = m.countP (fun p => p.1 == k) := by
  unfold jsSet
  rw [if_pos h, List.countP_map]
  congr 1
  funext p
  simp only [Function.comp_apply]
  rw [jsSet_ite_fst]

theorem jsMapOf_countP (ps : List (List Char × String)) (k : List Char) :
    (jsMapOf ps).countP (fun p => p.1 == k) =
      if ps.any (fun p => p.1 == k) then 1 else 0 := by
  induction ps using List.reverseRecOn with
  | nil => rfl
  | append_singleton ps q ih =>
    rw [jsMapOf_append_one]
    by_cases hq : (jsMapOf ps).any (fun p => p.1 == q.1)
    · rw [jsSet_countP_of_mem _ _ _ _ hq, ih]
      have hps : ps.any (fun p => p.1 == q.1) = true := by
        rw [← jsMapOf_any_key]; exact hq
      rw [List.any_append, List.any_cons, List.any_nil, Bool.or_false]
      by_cases hk : q.1 = k
      · subst hk
        rw [hps, beq_self_eq_true, Bool.or_true]
      · rw [beq_eq_false_iff_ne.mpr hk, Bool.or_false]
    · have hq2 : ((jsMapOf ps).any (fun p => p.1 == q.1)) = false := by
        cases hx : (jsMapOf ps).any (fun p => p.1 == q.1)
        · rfl
        · exact absurd hx hq
      have hps : ps.any (fun p => p.1 == q.1) = false := by
        rw [← jsMapOf_any_key]; exact hq2
      unfold jsSet
      rw [if_neg hq, List.countP_append, ih, List.any_append, List.any_cons,
        List.any_nil, Bool.or_false, List.countP_cons, List.countP_nil]
      by_cases hk : q.1 = k
      · subst hk
        rw [hps, beq_self_eq_true, Bool.or_true]
        simp
      · rw [beq_eq_false_iff_ne.mpr hk, Bool.or_false]
        simp

theorem jsMapOf_mem_lastAssigned (ps : List (List Char × String)) :
    ∀ p ∈ jsMapOf ps, lastAssigned p.1 ps = some p.2 := by
  induction ps using List.reverseRecOn with
  | nil => intro p hp; simp [jsMapOf] at hp
  | append_singleton ps q ih =>
    intro p hp
    rw [jsMapOf_append_one] at hp
    unfold jsSet at hp
    by_cases h : (jsMapOf ps).any (fun x => x.1 == q.1)
    · rw [if_pos h] at hp
      obtain ⟨p0, hp0, heq2⟩ := List.mem_map.1 hp
      by_cases h2 : p0.1 == q.1
      · rw [if_pos h2] at heq2
        subst heq2
        have hb : (q.1 == p0.1) = true := beq_iff_eq.mpr (eq_of_beq h2).symm
        unfold lastAssigned
        rw [List.reverse_append, List.reverse_singleton, List.singleton_append]
        simp only [List.find?, hb]
        rfl
      · rw [if_neg h2] at heq2
        subst heq2
        have hb : (q.1 == p0.1) = false := by
          cases hx : (q.1 == p0.1)
          · rfl
          · exact absurd (beq_iff_eq.mpr (eq_of_beq hx).symm) h2
        have hrec := ih p0 hp0
        unfold lastAssigned at hrec ⊢
        rw [List.reverse_append, List.reverse_singleton, List.singleton_append]
        simp only [List.find?, hb]
        exact hrec
    · rw [if_neg h] at hp
      rcases List.mem_append.1 hp with hmem | hmem
      · have hb : (q.1 == p.1) = false := by
          cases hx : (q.1 == p.1)
          · rfl
          · have hx2 : (p.1 == q.1) = true := beq_iff_eq.mpr (eq_of_beq hx).symm
            exact absurd (List.any_eq_true.2 ⟨p, hmem, hx2⟩) h
        have hrec := ih p hmem
        unfold lastAssigned at hrec ⊢
        rw [List.reverse_append, List.reverse_singleton, List.singleton_append]
        simp only [List.find?, hb]
        exact hrec
      · have hpq : p = (q.1, q.2) := by simpa using hmem
        subst hpq
        have hb : (q.1 == (q.1, q.2).1) = true := beq_self_eq_true q.1
        unfold lastAssigned
        rw [List.reverse_append, List.reverse_singleton, List.singleton_append]
        simp only [List.find?, hb]
        rfl

theorem jsSet_length_le (m : List (List Char × String)) (k : List Char) (v : String) :
    m.length ≤ (jsSet m k v).length := by
  unfold jsSet
  by_cases h : m.any (fun p => p.1 == k)
  · rw [if_pos h, List.length_map]
  · rw [if_neg h, List.length_append]
    omega

theorem jsMapOf_foldl_length (l : List (List Char × String)) :
    ∀ m : List (List Char × String),
      m.length ≤ (l.foldl (fun m p => jsSet m p.1 p.2) m).length := by
  induction l with
  | nil => intro m; exact le_refl _
  | cons q l ih =>
    intro m
    exact le_trans (jsSet_length_le m q.1 q.2) (ih _)

theorem jsMapOf_ne_nil (ps : List (List Char × String)) (h : ps ≠ []) :
    jsMapOf ps ≠ [] := by
  match ps, h with
  | q :: ps, _ =>
    unfold jsMapOf
    intro hc
    have h1 : jsSet [] q.1 q.2 = [(q.1, q.2)] := by unfold jsSet; simp
    have h2 := jsMapOf_foldl_length ps (jsSet [] q.1 q.2)
    rw [List.foldl_cons] at hc
    rw [hc] at h2
    rw [h1] at h2
    simp at h2

/-!
Structure lemmas about `parseChangesToCopadoFormat`.
-/

theorem foundComponentsMap_of_accepted_ne (cs : List Char) (h : acceptedPairs cs ≠ []) :
    foundComponentsMap cs = jsMapOf (acceptedPairs cs) := by
  unfold foundComponentsMap
  rw [if_neg (jsMapOf_ne_nil _ h)]

theorem parse_records_action (cs : List Char) (r : ChangeRecord)
    (hr : r ∈ parseChangesToCopadoFormat cs) : r.a = extractDefaultAction cs := by
  unfold parseChangesToCopadoFormat at hr
  by_cases h : foundComponentsMap cs = []
  · rw [if_pos h] at hr
    have : r = ⟨extractDefaultAction cs, "UnknownComponent", "ApexClass", defaultModule⟩ := by
      simpa using hr
    subst this
    rfl
  · rw [if_neg h] at hr
    obtain ⟨p, _, rfl⟩ := List.mem_map.1 hr
    rfl

theorem parse_ne_nil (cs : List Char) : parseChangesToCopadoFormat cs ≠ [] := by
  unfold parseChangesToCopadoFormat
  by_cases h : foundComponentsMap cs = []
  · rw [if_pos h]
    simp
  · rw [if_neg h]
    simpa using h

theorem parse_of_accepted_ne (cs : List Char) (h : acceptedPairs cs ≠ []) :
    parseChangesToCopadoFormat cs =
      (jsMapOf (acceptedPairs cs)).map
        (fun p => ⟨extractDefaultAction cs, String.mk p.1, p.2, defaultModule⟩) := by
  have h2 := foundComponentsMap_of_accepted_ne cs h
  unfold parseChangesToCopadoFormat
  rw [h2, if_neg (jsMapOf_ne_nil _ h)]

theorem parse_placeholder (cs : List Char) (h1 : acceptedPairs cs = [])
    (h2 : fallbackAccept cs = []) :
    parseChangesToCopadoFormat cs =
      [⟨extractDefaultAction cs, "UnknownComponent", "ApexClass", defaultModule⟩] := by
  have hm : foundComponentsMap cs = [] := by
    unfold foundComponentsMap
    rw [h1, h2]
    simp [jsMapOf]
  unfold parseChangesToCopadoFormat
  rw [if_pos hm]

/-!
Claim theorems.
-/

/-- Claim C1 (code bug): the authentication policy "prefer the explicit
`apiKey`, else the process-wide `COPADO_API_KEY`, else fail before any
request" holds only for `check_job_status`. `commit_changes` and
`promote_user_story` use only the explicit parameter (the configured token is
never consulted), and `deploy_promotion` uses only the configured token (the
explicit parameter is ignored), contradicting the source's own comments and
error messages. The theorem evaluates all four resolution functions and the
executions at the failing inputs. -/
theorem claim1_auth_resolution_divergence :
    commitAuthToken none (some "k") = none ∧
    promoteAuthToken none (some "k") = none ∧
    deployAuthToken (some "a") none = none ∧
    deployAuthToken (some "a") (some "k") = some "k" ∧
    checkJobStatusAuthToken none (some "k") = some "k" ∧
    checkJobStatusAuthToken (some "a") (some "k") = some "a" ∧
    commitExecute "a1u7Q000000LkSVQA0" "changed the Foo class" none none (some "k") =
      ToolOutcome.errorResult apiKeyRequiredMsg ∧
    promoteExecute "a1u7Q000000LkSVQA0" false false none (some "k") =
      ToolOutcome.errorResult apiKeyRequiredMsg ∧
    deployPromotionExecute "a0q5p00001GTeo9AAD" (some "a") none =
      ToolOutcome.errorResult apiKeyRequiredMsg ∧
    outcomeKey (deployPromotionExecute "a0q5p00001GTeo9AAD" (some "a") (some "k")) =
      some "k" ∧
    outcomeKey (checkJobStatusExecute "a0sKa00000WBZN9IAP" none (some "k")) = some "k" := by
  decide

/-- Claim C2 counterexample: the description `"Foo class and trigger Foo"`
first infers `(Foo, ApexClass)` (pattern 1) and later `(Foo, ApexTrigger)`
(patterns 2 and 3); the resulting record carries the later type, so a later
pattern match for the same name does overwrite the type already assigned. -/
theorem claim2_first_writer_counterexample :
    acceptedPairs "Foo class and trigger Foo".toList =
      [("Foo".toList, "ApexClass"), ("Foo".toList, "ApexTrigger"),
       ("Foo".toList, "ApexTrigger")] ∧
    parseChangesToCopadoFormat "Foo class and trigger Foo".toList =
      [⟨"Add", "Foo", "ApexTrigger", "force-app/main/default"⟩] := by
  constructor
  · decide
  · decide

/-- Claim C2 (amended): for every description and every accepted `(name, type)`
pair, the parser yields exactly one record for that name, and its type is the
last type the pattern passes inferred for it: a later pattern match for the
same name overwrites the type already assigned (JavaScript `Map.set`
semantics), while the record's position is that of the first assignment. -/
theorem claim2_last_writer_wins (cs name : List Char) (ty : String)
    (h : (name, ty) ∈ acceptedPairs cs) :
    ((parseChangesToCopadoFormat cs).filter
        (fun r => r.n == String.mk name)).length = 1 ∧
    ∀ r ∈ parseChangesToCopadoFormat cs, r.n = String.mk name →
      some r.t = lastAssigned name (acceptedPairs cs) := by
  have hne : acceptedPairs cs ≠ [] := List.ne_nil_of_mem h
  rw [parse_of_accepted_ne cs hne]
  constructor
  · rw [List.filter_map, List.length_map, ← List.countP_eq_length_filter]
    have hcomp : ((fun r : ChangeRecord => r.n == String.mk name) ∘
        (fun p : List Char × String =>
          (⟨extractDefaultAction cs, String.mk p.1, p.2, defaultModule⟩ : ChangeRecord))) =
        (fun p : List Char × String => p.1 == name) := by
      funext p
      show ((⟨extractDefaultAction cs, String.mk p.1, p.2, defaultModule⟩ :
        ChangeRecord).n == String.mk name) = (p.1 == name)
      exact stringMk_beq p.1 name
    rw [hcomp, jsMapOf_countP]
    have hany : (acceptedPairs cs).any (fun p => p.1 == name) = true :=
      List.any_eq_true.2 ⟨(name, ty), h, by simp⟩
    rw [hany]
    rfl
  · intro r hr hname
    obtain ⟨p, hp, rfl⟩ := List.mem_map.1 hr
    have hkey : p.1 = name := congrArg String.data hname
    have := jsMapOf_mem_lastAssigned (acceptedPairs cs) p hp
    rw [hkey] at this
    rw [this]

/-- Claim C3 counterexample: the description `"xFoo class"` contains the
substring `"Foo class"`, `Foo` satisfies the name grammar, the length bound
and the exclusion condition, yet parsing yields only the synthetic placeholder
record and no record named `Foo` (the occurrence is not aligned with a word
boundary, so pattern matching sees the run `xFoo`, whose name fails the
case-sensitive validation). -/
theorem claim3_substring_counterexample :
    containsSub "Foo class".toList "xFoo class".toList = true ∧
    validName "Foo".toList = true ∧
    parseChangesToCopadoFormat "xFoo class".toList =
      [⟨"Add", "UnknownComponent", "ApexClass", "force-app/main/default"⟩] ∧
    ((parseChangesToCopadoFormat "xFoo class".toList).filter
        (fun r => r.n == "Foo")).length = 0 := by
  refine ⟨by decide, by decide, by decide, by decide⟩

/-- Claim C4: the end-to-end example: parsing
`"I modified the AccountController apex class"` yields exactly the one record
`{a := "Add", n := "AccountController", t := "ApexClass",
m := "force-app/main/default"}`. -/
theorem claim4_end_to_end_example :
    parseChangesToCopadoFormat "I modified the AccountController apex class".toList =
      [⟨"Add", "AccountController", "ApexClass", "force-app/main/default"⟩] := by
  decide

/-- Claim C5: the change-description parser is total and never returns an
empty list; when neither the pattern pass nor the fallback pass accepts a
component it returns exactly the synthetic placeholder record, and in
particular `"no changes here"` yields exactly that record. -/
theorem claim5_total_with_placeholder :
    (∀ cs, parseChangesToCopadoFormat cs ≠ []) ∧
    (∀ cs, acceptedPairs cs = [] → fallbackAccept cs = [] →
      parseChangesToCopadoFormat cs =
        [⟨extractDefaultAction cs, "UnknownComponent", "ApexClass", defaultModule⟩]) ∧
    parseChangesToCopadoFormat "no changes here".toList =
      [⟨"Add", "UnknownComponent", "ApexClass", "force-app/main/default"⟩] :=
  ⟨parse_ne_nil, parse_placeholder, by decide⟩

/-- Claim C5 witness: instantiation at `"no changes here"`. -/
theorem claim5_total_with_placeholder_witness :
    acceptedPairs "no changes here".toList = [] ∧
    fallbackAccept "no changes here".toList = [] ∧
    parseChangesToCopadoFormat "no changes here".toList =
      [⟨extractDefaultAction "no changes here".toList, "UnknownComponent", "ApexClass",
        defaultModule⟩] :=
  ⟨by decide, by decide,
    claim5_total_with_placeholder.2.1 "no changes here".toList (by decide) (by decide)⟩

/-- Claim C2 witness: instantiation at the description
`"Foo class and trigger Foo"` with the accepted pair `(Foo, ApexClass)`. -/
theorem claim2_last_writer_wins_witness :
    (("Foo".toList, "ApexClass") ∈ acceptedPairs "Foo class and trigger Foo".toList) ∧
    ((parseChangesToCopadoFormat "Foo class and trigger Foo".toList).filter
        (fun r => r.n == String.mk "Foo".toList)).length = 1 ∧
    some "ApexTrigger" =
      lastAssigned "Foo".toList (acceptedPairs "Foo class and trigger Foo".toList) := by
  have h : ("Foo".toList, "ApexClass") ∈ acceptedPairs "Foo class and trigger Foo".toList := by
    decide
  have main := claim2_last_writer_wins "Foo class and trigger Foo".toList "Foo".toList
    "ApexClass" h
  exact ⟨h, main.1,
    main.2 ⟨"Add", "Foo", "ApexTrigger", "force-app/main/default"⟩ (by decide) (by decide)⟩

/-!
Lemmas about the identifier-list parser.
-/

theorem takeRun_length (p : Char → Bool) (cs : List Char) :
    (takeRun p cs).1.length + (takeRun p cs).2.length = cs.length := by
  induction cs with
  | nil => rfl
  | cons c cs ih =>
    unfold takeRun
    by_cases h : p c
    · rw [if_pos h]
      show (c :: (takeRun p cs).1).length + (takeRun p cs).2.length = (c :: cs).length
      simp only [List.length_cons]
      omega
    · rw [if_neg h]
      simp

theorem length_pos_of_not_isEmpty (l : List Char) (h : l.isEmpty ≠ true) :
    1 ≤ l.length := by
  cases l with
  | nil => exact absurd rfl h
  | cons c l => simp

theorem andMatchAt_some_length (cs rest : List Char) (h : andMatchAt cs = some rest) :
    rest.length + 5 ≤ cs.length := by
  have h1 := takeRun_length isWsChar cs
  simp only [andMatchAt] at h
  split at h
  · exact absurd h (by simp)
  · next hne =>
    split at h
    · next x a n d r2 heq =>
      split at h
      · split at h
        · exact absurd h (by simp)
        · next hne2 =>
          injection h with h
          have h2 := takeRun_length isWsChar r2
          have h3 : (takeRun isWsChar cs).2.length = r2.length + 3 := by
            rw [heq]; simp
          have h4 : 1 ≤ (takeRun isWsChar r2).1.length := by
            cases hcase : (takeRun isWsChar r2).1
            · rw [hcase] at hne2; simp at hne2
            · simp
          have h5 : 1 ≤ (takeRun isWsChar cs).1.length := by
            cases hcase : (takeRun isWsChar cs).1
            · rw [hcase] at hne; simp at hne
            · simp
          rw [← h]
          omega
      · exact absurd h (by simp)
    · exact absurd h (by simp)

theorem replaceAndF_nil (f : Nat) : replaceAndF f [] = [] := by
  cases f <;> rfl

theorem refSplitF_nil (f : Nat) : refSplitF f [] = [[]] := by
  cases f <;> rfl

theorem replaceAndF_fuel : ∀ (f1 f2 : Nat) (cs : List Char),
    cs.length ≤ f1 → cs.length ≤ f2 → replaceAndF f1 cs = replaceAndF f2 cs := by
  intro f1
  induction f1 with
  | zero =>
    intro f2 cs h1 h2
    have hnil : cs = [] := List.eq_nil_of_length_eq_zero (Nat.le_zero.mp h1)
    subst hnil
    rw [replaceAndF_nil, replaceAndF_nil]
  | succ f1 ih =>
    intro f2 cs h1 h2
    cases cs with
    | nil => rw [replaceAndF_nil, replaceAndF_nil]
    | cons c cs =>
      cases f2 with
      | zero => simp at h2
      | succ f2 =>
        rw [replaceAndF, replaceAndF]
        cases hm : andMatchAt (c :: cs) with
        | some rest =>
          have hl := andMatchAt_some_length _ _ hm
          simp only [List.length_cons] at h1 h2 hl
          have hr1 : rest.length ≤ f1 := by omega
          have hr2 : rest.length ≤ f2 := by omega
          show ',' :: replaceAndF f1 rest = ',' :: replaceAndF f2 rest
          rw [ih f2 rest hr1 hr2]
        | none =>
          simp only [List.length_cons] at h1 h2
          show c :: replaceAndF f1 cs = c :: replaceAndF f2 cs
          rw [ih f2 cs (by omega) (by omega)]

theorem replaceAnd_cons_match (c : Char) (cs rest : List Char)
    (h : andMatchAt (c :: cs) = some rest) :
    replaceAnd (c :: cs) = ',' :: replaceAnd rest := by
  have hl := andMatchAt_some_length _ _ h
  simp only [List.length_cons] at hl
  unfold replaceAnd
  show replaceAndF (cs.length + 1) (c :: cs) = ',' :: replaceAndF rest.length rest
  rw [replaceAndF, h]
  show ',' :: replaceAndF cs.length rest = ',' :: replaceAndF rest.length rest
  rw [replaceAndF_fuel cs.length rest.length rest (by omega) (le_refl _)]

theorem replaceAnd_cons_nomatch (c : Char) (cs : List Char)
    (h : andMatchAt (c :: cs) = none) :
    replaceAnd (c :: cs) = c :: replaceAnd cs := by
  unfold replaceAnd
  show replaceAndF (cs.length + 1) (c :: cs) = c :: replaceAndF cs.length cs
  rw [replaceAndF, h]

theorem splitOnComma_ne_nil (cs : List Char) : splitOnComma cs ≠ [] := by
  cases cs with
  | nil => simp [splitOnComma]
  | cons c cs =>
    unfold splitOnComma
    by_cases h : c == ','
    · rw [if_pos h]; simp
    · rw [if_neg h]
      cases hs : splitOnComma cs <;> simp

theorem split_replaceAndF : ∀ (f : Nat) (cs : List Char), cs.length ≤ f →
    splitOnComma (replaceAndF f cs) = refSplitF f cs := by
  intro f
  induction f with
  | zero =>
    intro cs h
    have hnil : cs = [] := List.eq_nil_of_length_eq_zero (Nat.le_zero.mp h)
    subst hnil
    rfl
  | succ f ih =>
    intro cs h
    cases cs with
    | nil => rfl
    | cons c cs =>
      rw [replaceAndF, refSplitF]
      cases hm : andMatchAt (c :: cs) with
      | some rest =>
        have hl := andMatchAt_some_length _ _ hm
        simp only [List.length_cons] at h hl
        show splitOnComma (',' :: replaceAndF f rest) = [] :: refSplitF f rest
        unfold splitOnComma
        rw [if_pos (by simp)]
        rw [ih rest (by omega)]
      | none =>
        simp only [List.length_cons] at h
        show splitOnComma (c :: replaceAndF f cs) = _
        unfold splitOnComma
        by_cases hc : c == ','
        · rw [if_pos hc, if_pos hc, ih cs (by omega)]
        · rw [if_neg hc, if_neg hc, ih cs (by omega)]

theorem parseUserStoryIds_eq_ref (cs : List Char) :
    parseUserStoryIds cs = refParseUserStoryIds cs := by
  unfold parseUserStoryIds refParseUserStoryIds replaceAnd
  rw [split_replaceAndF (stripChars cs).length (stripChars cs) (le_refl _)]

theorem dropWhile_idem (p : Char → Bool) (l : List Char) :
    (l.dropWhile p).dropWhile p = l.dropWhile p := by
  induction l with
  | nil => rfl
  | cons c l ih =>
    by_cases h : p c
    · rw [List.dropWhile_cons_of_pos h, ih]
    · rw [List.dropWhile_cons_of_neg h, List.dropWhile_cons_of_neg h]

theorem dropWhile_head_not (p : Char → Bool) (l : List Char) (c : Char) (t : List Char)
    (h : l.dropWhile p = c :: t) : p c = false := by
  induction l with
  | nil => simp at h
  | cons x l ih =>
    by_cases hx : p x
    · rw [List.dropWhile_cons_of_pos hx] at h
      exact ih h
    · rw [List.dropWhile_cons_of_neg hx] at h
      cases h
      exact Bool.not_eq_true _ ▸ hx

theorem dropWhile_eq_self_of_head (p : Char → Bool) (c : Char) (t : List Char)
    (h : p c = false) : (c :: t).dropWhile p = c :: t :=
  List.dropWhile_cons_of_neg (by simp [h])

theorem dropWhile_eq_self_of_isPrefix (p : Char → Bool) (w v : List Char)
    (hw : w.dropWhile p = w) (hv : v <+: w) : v.dropWhile p = v := by
  cases v with
  | nil => rfl
  | cons c t =>
    cases w with
    | nil =>
      obtain ⟨r, hr⟩ := hv
      simp at hr
    | cons c2 t2 =>
      have hc : c = c2 := by
        obtain ⟨r, hr⟩ := hv
        cases hr
        rfl
      subst hc
      have hpc : p c = false := by
        cases hx : p c
        · rfl
        · rw [List.dropWhile_cons_of_pos hx] at hw
          have hlen := congrArg List.length hw
          have hle : (t2.dropWhile p).length ≤ t2.length := by
            conv_rhs => rw [← List.takeWhile_append_dropWhile (p := p) (l := t2)]
            rw [List.length_append]
            omega
          simp only [List.length_cons] at hlen
          omega
      exact dropWhile_eq_self_of_head p c t hpc

theorem trimL_eq_self (t : List Char) (h1 : t.dropWhile isWsChar = t)
    (h2 : t.reverse.dropWhile isWsChar = t.reverse) : trimL t = t := by
  unfold trimL
  rw [h1, h2, List.reverse_reverse]

theorem trimL_isPrefix_dropWhile (y : List Char) :
    trimL y <+: y.dropWhile isWsChar := by
  refine ⟨((y.dropWhile isWsChar).reverse.takeWhile isWsChar).reverse, ?_⟩
  unfold trimL
  rw [← List.reverse_append, List.takeWhile_append_dropWhile, List.reverse_reverse]

theorem trimL_idem (y : List Char) : trimL (trimL y) = trimL y := by
  apply trimL_eq_self
  · exact dropWhile_eq_self_of_isPrefix isWsChar (y.dropWhile isWsChar) (trimL y)
      (dropWhile_idem _ _) (trimL_isPrefix_dropWhile y)
  · show (trimL y).reverse.dropWhile isWsChar = (trimL y).reverse
    unfold trimL
    rw [List.reverse_reverse]
    exact dropWhile_idem _ _

/-!
Lemmas for the idempotence of the identifier-list parser (claim C7). The key
invariant: the output of the `\s+and\s+` replacement contains no occurrence of
the separator pattern, so re-parsing the comma-join of the parsed elements
changes nothing.
-/

theorem takeRun_cons_neg (p : Char → Bool) (c : Char) (r : List Char) (h : p c = false) :
    takeRun p (c :: r) = ([], c :: r) := by
  rw [takeRun, if_neg (by simp [h])]

theorem takeRun_cons_pos (p : Char → Bool) (c : Char) (r : List Char) (h : p c = true) :
    takeRun p (c :: r) = (c :: (takeRun p r).1, (takeRun p r).2) := by
  rw [takeRun, if_pos h]

theorem takeRun_append_all (p : Char → Bool) (w r : List Char)
    (hw : ∀ c ∈ w, p c = true) :
    takeRun p (w ++ r) = (w ++ (takeRun p r).1, (takeRun p r).2) := by
  induction w with
  | nil => simp
  | cons c w ih =>
    have hc : p c = true := hw c (List.mem_cons_self c w)
    show takeRun p (c :: (w ++ r)) = ((c :: w) ++ (takeRun p r).1, (takeRun p r).2)
    rw [takeRun_cons_pos p c _ hc, ih (fun x hx => hw x (List.mem_cons_of_mem c hx)),
      List.cons_append]

theorem ws_char_cases (c : Char) (h : isWsChar c = true) :
    c = ' ' ∨ c = '\t' ∨ c = '\n' ∨ c = '\r' ∨ c = Char.ofNat 11 ∨ c = Char.ofNat 12 := by
  unfold isWsChar at h
  simp only [Bool.or_eq_true, beq_iff_eq] at h
  tauto

theorem wsChar_not_and_char (c : Char) (h : isWsChar c = true) :
    c.toLower ≠ 'a' ∧ c.toLower ≠ 'n' ∧ c.toLower ≠ 'd' := by
  rcases ws_char_cases c h with rfl | rfl | rfl | rfl | rfl | rfl <;>
    exact ⟨by decide, by decide, by decide⟩

theorem PatAt_nil_false : ¬ PatAt [] := by
  rintro ⟨w1, a, n, d, w2, r, heq, -, -, -, -, -, -, -⟩
  have hl := congrArg List.length heq
  simp [List.length_append] at hl
  omega

theorem PatAt_comma_head_false (X : List Char) : ¬ PatAt (',' :: X) := by
  rintro ⟨w1, a, n, d, w2, r, heq, hw1ne, hw1, -, -, -, -, -⟩
  cases w1 with
  | nil => exact hw1ne rfl
  | cons y w1x =>
    have hh := congrArg List.head? heq
    simp at hh
    have hws := hw1 y (List.mem_cons_self y w1x)
    rw [← hh] at hws
    exact absurd hws (by decide)

theorem PatAt_append_right (s t : List Char) (h : PatAt s) : PatAt (s ++ t) := by
  obtain ⟨w1, a, n, d, w2, r, rfl, hw1ne, hw1, ha, hn, hd, hw2ne, hw2⟩ := h
  exact ⟨w1, a, n, d, w2, r ++ t, by simp, hw1ne, hw1, ha, hn, hd, hw2ne, hw2⟩

theorem patChar_of_ws (c : Char) (h : isWsChar c = true) : isPatChar c = true := by
  unfold isPatChar
  rw [h]
  rfl

theorem PatAt_patChar_prefix (cs : List Char) (h : PatAt cs) :
    ∃ P, P <+: cs ∧ P ≠ [] ∧ (∀ c ∈ P, isPatChar c = true) ∧ ∀ t, PatAt (P ++ t) := by
  obtain ⟨w1, a, n, d, w2, r, rfl, hw1ne, hw1, ha, hn, hd, hw2ne, hw2⟩ := h
  obtain ⟨x, w2x, rfl⟩ : ∃ x w2x, w2 = x :: w2x := by
    cases w2 with
    | nil => exact absurd rfl hw2ne
    | cons x w2x => exact ⟨x, w2x, rfl⟩
  refine ⟨w1 ++ [a, n, d, x], ⟨w2x ++ r, by simp⟩, by simp, ?_, ?_⟩
  · intro c hc
    rcases List.mem_append.1 hc with hm | hm
    · exact patChar_of_ws c (hw1 c hm)
    · simp only [List.mem_cons, List.mem_singleton] at hm
      rcases hm with rfl | rfl | rfl | rfl | hfalse
      · unfold isPatChar
        rw [show (c.toLower == 'a') = true from beq_iff_eq.mpr ha]
        simp
      · unfold isPatChar
        rw [show (c.toLower == 'n') = true from beq_iff_eq.mpr hn]
        simp
      · unfold isPatChar
        rw [show (c.toLower == 'd') = true from beq_iff_eq.mpr hd]
        simp
      · exact patChar_of_ws c (hw2 c (by simp))
      · simp at hfalse
  · intro t
    refine ⟨w1, a, n, d, [x], t, by simp, hw1ne, hw1, ha, hn, hd, by simp, ?_⟩
    intro c hc
    simp only [List.mem_singleton] at hc
    subst hc
    exact hw2 c (by simp)

theorem takeRun_cons_pos_fst (p : Char → Bool) (c : Char) (r : List Char)
    (h : p c = true) : (takeRun p (c :: r)).1 = c :: (takeRun p r).1 := by
  rw [takeRun_cons_pos p c r h]

theorem takeRun_decomp (p : Char → Bool) (cs : List Char) :
    (takeRun p cs).1 ++ (takeRun p cs).2 = cs := by
  induction cs with
  | nil => rfl
  | cons c cs ih =>
    cases hx : p c
    · rw [takeRun_cons_neg p c cs hx]
      rfl
    · rw [takeRun_cons_pos p c cs hx]
      show c :: ((takeRun p cs).1 ++ (takeRun p cs).2) = c :: cs
      rw [ih]

theorem takeRun_run_all (p : Char → Bool) (cs : List Char) :
    ∀ c ∈ (takeRun p cs).1, p c = true := by
  induction cs with
  | nil => intro c hc; simp [takeRun] at hc
  | cons c0 cs ih =>
    cases hx : p c0
    · rw [takeRun_cons_neg p c0 cs hx]
      intro c hc
      simp at hc
    · rw [takeRun_cons_pos_fst p c0 cs hx]
      intro c hc
      rcases List.mem_cons.1 hc with rfl | hm
      · exact hx
      · exact ih c hm

theorem andMatchAt_isSome_of_PatAt (cs : List Char) (h : PatAt cs) :
    (andMatchAt cs).isSome = true := by
  obtain ⟨w1, a, n, d, w2, r, rfl, hw1ne, hw1, ha, hn, hd, hw2ne, hw2⟩ := h
  have hans : isWsChar a = false := by
    cases hx : isWsChar a
    · rfl
    · exact absurd ha (wsChar_not_and_char a hx).1
  have htr1 : takeRun isWsChar (w1 ++ a :: n :: d :: (w2 ++ r)) =
      (w1, a :: n :: d :: (w2 ++ r)) := by
    rw [takeRun_append_all isWsChar w1 _ hw1, takeRun_cons_neg _ _ _ hans]
    simp
  have htr2 : takeRun isWsChar (w2 ++ r) =
      (w2 ++ (takeRun isWsChar r).1, (takeRun isWsChar r).2) :=
    takeRun_append_all isWsChar w2 r hw2
  have hw1e : w1.isEmpty = false := by
    cases w1 with
    | nil => exact absurd rfl hw1ne
    | cons _ _ => rfl
  have hw2e : (w2 ++ (takeRun isWsChar r).1).isEmpty = false := by
    cases w2 with
    | nil => exact absurd rfl hw2ne
    | cons _ _ => rfl
  simp only [andMatchAt, htr1, htr2, hw1e, hw2e, ha, hn, hd]
  simp

theorem andMatchAt_some_PatAt (cs rest : List Char) (h : andMatchAt cs = some rest) :
    PatAt cs := by
  simp only [andMatchAt] at h
  split at h
  · exact absurd h (by simp)
  · next hne =>
    split at h
    · next x a n d r2 heq =>
      split at h
      · next hchars =>
        split at h
        · exact absurd h (by simp)
        · next hne2 =>
          rw [Bool.and_eq_true, Bool.and_eq_true] at hchars
          obtain ⟨⟨ha, hn⟩, hd⟩ := hchars
          have hd1 := takeRun_decomp isWsChar cs
          have hd2 := takeRun_decomp isWsChar r2
          have hw1ne : (takeRun isWsChar cs).1 ≠ [] := by
            intro hc
            rw [hc] at hne
            exact hne rfl
          have hw2ne : (takeRun isWsChar r2).1 ≠ [] := by
            intro hc
            rw [hc] at hne2
            exact hne2 rfl
          refine ⟨(takeRun isWsChar cs).1, a, n, d, (takeRun isWsChar r2).1,
            (takeRun isWsChar r2).2, ?_, hw1ne, takeRun_run_all isWsChar cs,
            beq_iff_eq.mp ha, beq_iff_eq.mp hn, beq_iff_eq.mp hd, hw2ne,
            takeRun_run_all isWsChar r2⟩
          rw [hd2]
          rw [← heq]
          exact hd1.symm
      · exact absurd h (by simp)
    · exact absurd h (by simp)

theorem andMatchAt_some_suffix (cs rest : List Char) (h : andMatchAt cs = some rest) :
    rest <:+ cs := by
  simp only [andMatchAt] at h
  split at h
  · exact absurd h (by simp)
  · split at h
    · next x a n d r2 heq =>
      split at h
      · split at h
        · exact absurd h (by simp)
        · injection h with h1
          rw [← h1]
          have hd1 := takeRun_decomp isWsChar cs
          have hd2 := takeRun_decomp isWsChar r2
          have s1 : (takeRun isWsChar r2).2 <:+ r2 := ⟨(takeRun isWsChar r2).1, hd2⟩
          have s2 : r2 <:+ (takeRun isWsChar cs).2 := by
            rw [heq]
            exact ⟨[a, n, d], rfl⟩
          have s3 : (takeRun isWsChar cs).2 <:+ cs := ⟨(takeRun isWsChar cs).1, hd1⟩
          exact (s1.trans s2).trans s3
      · exact absurd h (by simp)
    · exact absurd h (by simp)

theorem patChar_prefix_replaceAndF : ∀ (f : Nat) (cs P : List Char),
    P <+: replaceAndF f cs → (∀ c ∈ P, isPatChar c = true) → P <+: cs := by
  intro f
  induction f with
  | zero =>
    intro cs P hP _
    rw [show replaceAndF 0 cs = [] from rfl] at hP
    rw [List.prefix_nil.mp hP]
    exact List.nil_prefix
  | succ f ih =>
    intro cs P hP hpc
    cases cs with
    | nil =>
      rw [replaceAndF_nil] at hP
      rw [List.prefix_nil.mp hP]
    | cons c cs =>
      cases hm : andMatchAt (c :: cs) with
      | some rest =>
        have hre : replaceAndF (f + 1) (c :: cs) = ',' :: replaceAndF f rest := by
          rw [replaceAndF, hm]
        rw [hre] at hP
        rcases List.prefix_cons_iff.1 hP with rfl | ⟨t, rfl, ht⟩
        · exact List.nil_prefix
        · exact absurd (hpc ',' (List.mem_cons_self ',' t)) (by decide)
      | none =>
        have hre : replaceAndF (f + 1) (c :: cs) = c :: replaceAndF f cs := by
          rw [replaceAndF, hm]
        rw [hre] at hP
        rcases List.prefix_cons_iff.1 hP with rfl | ⟨t, rfl, ht⟩
        · exact List.nil_prefix
        · exact List.cons_prefix_cons.mpr
            ⟨rfl, ih cs t ht (fun y hy => hpc y (List.mem_cons_of_mem c hy))⟩

theorem replaceAndF_noPat : ∀ (f : Nat) (cs : List Char), cs.length ≤ f →
    ∀ s, s <:+ replaceAndF f cs → ¬ PatAt s := by
  intro f
  induction f with
  | zero =>
    intro cs _ s hs
    rw [show replaceAndF 0 cs = [] from rfl] at hs
    rw [List.suffix_nil.mp hs]
    exact PatAt_nil_false
  | succ f ih =>
    intro cs h s hs
    cases cs with
    | nil =>
      rw [replaceAndF_nil] at hs
      rw [List.suffix_nil.mp hs]
      exact PatAt_nil_false
    | cons c cs =>
      cases hm : andMatchAt (c :: cs) with
      | some rest =>
        have hre : replaceAndF (f + 1) (c :: cs) = ',' :: replaceAndF f rest := by
          rw [replaceAndF, hm]
        rw [hre] at hs
        have hl := andMatchAt_some_length _ _ hm
        simp only [List.length_cons] at h hl
        rcases List.suffix_cons_iff.1 hs with rfl | htail
        · exact PatAt_comma_head_false _
        · exact ih rest (by omega) s htail
      | none =>
        have hre : replaceAndF (f + 1) (c :: cs) = c :: replaceAndF f cs := by
          rw [replaceAndF, hm]
        rw [hre] at hs
        simp only [List.length_cons] at h
        rcases List.suffix_cons_iff.1 hs with rfl | htail
        · intro hpat
          obtain ⟨P, hPpre, hPne, hPchars, hPall⟩ := PatAt_patChar_prefix _ hpat
          rcases List.prefix_cons_iff.1 hPpre with rfl | ⟨t, rfl, ht⟩
          · exact hPne rfl
          · have ht2 : t <+: cs := patChar_prefix_replaceAndF f cs t ht
              (fun y hy => hPchars y (List.mem_cons_of_mem c hy))
            obtain ⟨r2, hr2⟩ := ht2
            have hpat2 : PatAt (c :: cs) := by
              have hall := hPall r2
              rw [List.cons_append, hr2] at hall
              exact hall
            have hsome := andMatchAt_isSome_of_PatAt _ hpat2
            rw [hm] at hsome
            exact absurd hsome (by decide)
        · exact ih cs (by omega) s htail

theorem replaceAnd_noPat (cs : List Char) : ∀ s, s <:+ replaceAnd cs → ¬ PatAt s :=
  replaceAndF_noPat cs.length cs (le_refl _)

theorem replaceAndF_id_of_noPat : ∀ (f : Nat) (cs : List Char), cs.length ≤ f →
    (∀ s, s <:+ cs → ¬ PatAt s) → replaceAndF f cs = cs := by
  intro f
  induction f with
  | zero =>
    intro cs h _
    rw [List.eq_nil_of_length_eq_zero (Nat.le_zero.mp h)]
    rfl
  | succ f ih =>
    intro cs h hnp
    cases cs with
    | nil => exact replaceAndF_nil _
    | cons c cs =>
      have hm : andMatchAt (c :: cs) = none := by
        cases hx : andMatchAt (c :: cs) with
        | none => rfl
        | some rest =>
          exact absurd (andMatchAt_some_PatAt _ _ hx) (hnp (c :: cs) (List.suffix_refl _))
      simp only [List.length_cons] at h
      rw [replaceAndF, hm]
      show c :: replaceAndF f cs = c :: cs
      rw [ih cs (by omega) (fun s hsx => hnp s (hsx.trans (List.suffix_cons c cs)))]

theorem replaceAnd_id_of_noPat (cs : List Char) (h : ∀ s, s <:+ cs → ¬ PatAt s) :
    replaceAnd cs = cs :=
  replaceAndF_id_of_noPat cs.length cs (le_refl _) h

theorem splitOnComma_cons_comma (cs : List Char) :
    splitOnComma (',' :: cs) = [] :: splitOnComma cs := by
  rw [splitOnComma, if_pos (by simp)]

theorem splitOnComma_cons_ne (c : Char) (cs p0 : List Char) (ps0 : List (List Char))
    (hc : (c == ',') = false) (hs : splitOnComma cs = p0 :: ps0) :
    splitOnComma (c :: cs) = (c :: p0) :: ps0 := by
  rw [splitOnComma, if_neg (by simp [hc]), hs]

theorem splitOnComma_head_decomp : ∀ (cs p : List Char) (ps : List (List Char)),
    splitOnComma cs = p :: ps → ∃ r, cs = p ++ r := by
  intro cs
  induction cs with
  | nil =>
    intro p ps h
    have hx : ([] : List Char) :: ([] : List (List Char)) = p :: ps := h
    injection hx with h1 h2
    exact ⟨[], by rw [← h1]; rfl⟩
  | cons c cs ih =>
    intro p ps h
    cases hc : c == ','
    · cases hsx : splitOnComma cs with
      | nil => exact absurd hsx (splitOnComma_ne_nil cs)
      | cons p0 ps0 =>
        rw [splitOnComma_cons_ne c cs p0 ps0 hc hsx] at h
        injection h with h1 h2
        obtain ⟨r, hr⟩ := ih p0 ps0 hsx
        exact ⟨r, by rw [← h1, List.cons_append, ← hr]⟩
    · have hceq : c = ',' := eq_of_beq hc
      subst hceq
      rw [splitOnComma_cons_comma] at h
      injection h with h1 h2
      exact ⟨',' :: cs, by rw [← h1]; rfl⟩

theorem split_mem_no_comma : ∀ (cs p : List Char), p ∈ splitOnComma cs → ',' ∉ p := by
  intro cs
  induction cs with
  | nil =>
    intro p hp
    have hx : p ∈ ([] : List Char) :: ([] : List (List Char)) := hp
    simp at hx
    subst hx
    simp
  | cons c cs ih =>
    intro p hp
    cases hc : c == ','
    · cases hsx : splitOnComma cs with
      | nil => exact absurd hsx (splitOnComma_ne_nil cs)
      | cons p0 ps0 =>
        rw [splitOnComma_cons_ne c cs p0 ps0 hc hsx] at hp
        rcases List.mem_cons.1 hp with rfl | hm
        · intro hcm
          rcases List.mem_cons.1 hcm with heq2 | hm2
          · have hc2 : c = ',' := heq2.symm
            rw [hc2] at hc
            exact absurd hc (by decide)
          · exact ih p0 (by rw [hsx]; exact List.mem_cons_self p0 ps0) hm2
        · exact ih p (by rw [hsx]; exact List.mem_cons_of_mem p0 hm)
    · have hceq : c = ',' := eq_of_beq hc
      subst hceq
      rw [splitOnComma_cons_comma] at hp
      rcases List.mem_cons.1 hp with rfl | hm
      · simp
      · exact ih p hm

theorem splitOnComma_pat_transfer : ∀ (cs p : List Char), p ∈ splitOnComma cs →
    ∀ s, s <:+ p → PatAt s → ∃ s2, s2 <:+ cs ∧ PatAt s2 := by
  intro cs
  induction cs with
  | nil =>
    intro p hp s hs hpat
    have hx : p ∈ ([] : List Char) :: ([] : List (List Char)) := hp
    simp at hx
    subst hx
    rw [List.suffix_nil.mp hs] at hpat
    exact absurd hpat PatAt_nil_false
  | cons c cs ih =>
    intro p hp s hs hpat
    cases hc : c == ','
    · cases hsx : splitOnComma cs with
      | nil => exact absurd hsx (splitOnComma_ne_nil cs)
      | cons p0 ps0 =>
        rw [splitOnComma_cons_ne c cs p0 ps0 hc hsx] at hp
        rcases List.mem_cons.1 hp with rfl | hm
        · rcases List.suffix_cons_iff.1 hs with rfl | htail
          · obtain ⟨r, hr⟩ := splitOnComma_head_decomp cs p0 ps0 hsx
            refine ⟨(c :: p0) ++ r, ?_, PatAt_append_right _ r hpat⟩
            rw [hr, ← List.cons_append]
          · obtain ⟨s2, hs2, hp2⟩ :=
              ih p0 (by rw [hsx]; exact List.mem_cons_self p0 ps0) s htail hpat
            exact ⟨s2, hs2.trans (List.suffix_cons c cs), hp2⟩
        · obtain ⟨s2, hs2, hp2⟩ :=
            ih p (by rw [hsx]; exact List.mem_cons_of_mem p0 hm) s hs hpat
          exact ⟨s2, hs2.trans (List.suffix_cons c cs), hp2⟩
    · have hceq : c = ',' := eq_of_beq hc
      subst hceq
      rw [splitOnComma_cons_comma] at hp
      rcases List.mem_cons.1 hp with rfl | hm
      · rw [List.suffix_nil.mp hs] at hpat
        exact absurd hpat PatAt_nil_false
      · obtain ⟨s2, hs2, hp2⟩ := ih p hm s hs hpat
        exact ⟨s2, hs2.trans (List.suffix_cons ',' cs), hp2⟩

theorem mem_replaceAndF : ∀ (f : Nat) (cs : List Char) (c : Char),
    c ∈ replaceAndF f cs → c ∈ cs ∨ c = ',' := by
  intro f
  induction f with
  | zero =>
    intro cs c hc
    rw [show replaceAndF 0 cs = [] from rfl] at hc
    exact absurd hc (List.not_mem_nil c)
  | succ f ih =>
    intro cs c hc
    cases cs with
    | nil =>
      rw [replaceAndF_nil] at hc
      exact absurd hc (List.not_mem_nil c)
    | cons c0 cs =>
      cases hm : andMatchAt (c0 :: cs) with
      | some rest =>
        have hre : replaceAndF (f + 1) (c0 :: cs) = ',' :: replaceAndF f rest := by
          rw [replaceAndF, hm]
        rw [hre] at hc
        rcases List.mem_cons.1 hc with rfl | hmem
        · exact Or.inr rfl
        · rcases ih rest c hmem with hin | hcm
          · refine Or.inl ?_
            obtain ⟨t, ht⟩ := andMatchAt_some_suffix _ _ hm
            rw [← ht]
            exact List.mem_append.2 (Or.inr hin)
          · exact Or.inr hcm
      | none =>
        have hre : replaceAndF (f + 1) (c0 :: cs) = c0 :: replaceAndF f cs := by
          rw [replaceAndF, hm]
        rw [hre] at hc
        rcases List.mem_cons.1 hc with rfl | hmem
        · exact Or.inl (List.mem_cons_self c cs)
        · rcases ih cs c hmem with hin | hcm
          · exact Or.inl (List.mem_cons_of_mem c0 hin)
          · exact Or.inr hcm

theorem mem_splitOnComma_mem : ∀ (cs p : List Char), p ∈ splitOnComma cs →
    ∀ c ∈ p, c ∈ cs := by
  intro cs
  induction cs with
  | nil =>
    intro p hp c hc
    have hx : p ∈ ([] : List Char) :: ([] : List (List Char)) := hp
    simp at hx
    subst hx
    exact absurd hc (List.not_mem_nil c)
  | cons c0 cs ih =>
    intro p hp c hc
    cases hcc : c0 == ','
    · cases hsx : splitOnComma cs with
      | nil => exact absurd hsx (splitOnComma_ne_nil cs)
      | cons p0 ps0 =>
        rw [splitOnComma_cons_ne c0 cs p0 ps0 hcc hsx] at hp
        rcases List.mem_cons.1 hp with rfl | hm
        · rcases List.mem_cons.1 hc with rfl | hm2
          · exact List.mem_cons_self c cs
          · exact List.mem_cons_of_mem c0
              (ih p0 (by rw [hsx]; exact List.mem_cons_self p0 ps0) c hm2)
        · exact List.mem_cons_of_mem c0
            (ih p (by rw [hsx]; exact List.mem_cons_of_mem p0 hm) c hc)
    · have hceq : c0 = ',' := eq_of_beq hcc
      subst hceq
      rw [splitOnComma_cons_comma] at hp
      rcases List.mem_cons.1 hp with rfl | hm
      · exact absurd hc (List.not_mem_nil c)
      · exact List.mem_cons_of_mem ',' (ih p hm c hc)

theorem trimL_decomp (cs : List Char) : ∃ u v, cs = u ++ (trimL cs ++ v) := by
  refine ⟨cs.takeWhile isWsChar,
    ((cs.dropWhile isWsChar).reverse.takeWhile isWsChar).reverse, ?_⟩
  conv_lhs => rw [← List.takeWhile_append_dropWhile (p := isWsChar) (l := cs)]
  congr 1
  unfold trimL
  rw [← List.reverse_append, List.takeWhile_append_dropWhile, List.reverse_reverse]

theorem mem_trimL (cs : List Char) (c : Char) (h : c ∈ trimL cs) : c ∈ cs := by
  obtain ⟨u, v, hd⟩ := trimL_decomp cs
  rw [hd, List.mem_append, List.mem_append]
  exact Or.inr (Or.inl h)

theorem stripChars_eq_self (cs : List Char) (h : ∀ c ∈ cs, isBracketQuote c = false) :
    stripChars cs = cs := by
  unfold stripChars
  rw [List.filter_eq_self]
  intro a ha
  rw [h a ha]
  rfl

theorem mem_stripChars_not_bq (cs : List Char) (c : Char) (h : c ∈ stripChars cs) :
    isBracketQuote c = false := by
  unfold stripChars at h
  have hb := (List.mem_filter.1 h).2
  cases hx : isBracketQuote c
  · rfl
  · rw [hx] at hb
    exact absurd hb (by decide)

theorem splitOnComma_no_comma_self (e : List Char) (he : ',' ∉ e) :
    splitOnComma e = [e] := by
  induction e with
  | nil => rfl
  | cons c e ih =>
    have hc : (c == ',') = false := by
      cases hx : c == ','
      · rfl
      · exact absurd (by rw [eq_of_beq hx] at he; exact he (List.mem_cons_self ',' e)) id
    have he2 : ',' ∉ e := fun hx => he (List.mem_cons_of_mem c hx)
    rw [splitOnComma_cons_ne c e e [] hc (ih he2)]

theorem splitOnComma_append_comma (e t : List Char) (he : ',' ∉ e) :
    splitOnComma (e ++ ',' :: t) = e :: splitOnComma t := by
  induction e with
  | nil => exact splitOnComma_cons_comma t
  | cons c e ih =>
    have hc : (c == ',') = false := by
      cases hx : c == ','
      · rfl
      · exact absurd (by rw [eq_of_beq hx] at he; exact he (List.mem_cons_self ',' e)) id
    have he2 : ',' ∉ e := fun hx => he (List.mem_cons_of_mem c hx)
    cases hsx : splitOnComma t with
    | nil => exact absurd hsx (splitOnComma_ne_nil t)
    | cons q qs =>
      have ht := ih he2
      rw [hsx] at ht
      show splitOnComma (c :: (e ++ ',' :: t)) = (c :: e) :: q :: qs
      rw [splitOnComma_cons_ne c (e ++ ',' :: t) e (q :: qs) hc ht]

theorem splitOnComma_joinComma : ∀ (es : List (List Char)), es ≠ [] →
    (∀ e ∈ es, ',' ∉ e) → splitOnComma (joinComma es) = es := by
  intro es
  induction es with
  | nil => intro h _; exact absurd rfl h
  | cons e es ih =>
    intro _ hc
    cases es with
    | nil =>
      show splitOnComma (joinComma [e]) = [e]
      exact splitOnComma_no_comma_self e (hc e (List.mem_cons_self e []))
    | cons e2 es2 =>
      show splitOnComma (e ++ ',' :: joinComma (e2 :: es2)) = e :: e2 :: es2
      rw [splitOnComma_append_comma e _ (hc e (List.mem_cons_self e _))]
      rw [ih (by simp) (fun e3 he3 => hc e3 (List.mem_cons_of_mem e he3))]

theorem mem_joinComma : ∀ (es : List (List Char)) (c : Char), c ∈ joinComma es →
    (∃ e ∈ es, c ∈ e) ∨ c = ',' := by
  intro es
  induction es with
  | nil =>
    intro c hc
    exact absurd hc (List.not_mem_nil c)
  | cons e es ih =>
    cases es with
    | nil =>
      intro c hc
      exact Or.inl ⟨e, List.mem_cons_self e [], hc⟩
    | cons e2 es2 =>
      intro c hc
      have hre : joinComma (e :: e2 :: es2) = e ++ ',' :: joinComma (e2 :: es2) := rfl
      rw [hre] at hc
      rcases List.mem_append.1 hc with h1 | h2
      · exact Or.inl ⟨e, List.mem_cons_self e _, h1⟩
      · rcases List.mem_cons.1 h2 with rfl | h3
        · exact Or.inr rfl
        · rcases ih c h3 with ⟨e3, he3, hce3⟩ | rfl
          · exact Or.inl ⟨e3, List.mem_cons_of_mem e he3, hce3⟩
          · exact Or.inr rfl

theorem suffix_append_cases (a : List Char) : ∀ (s b : List Char), s <:+ a ++ b →
    s <:+ b ∨ ∃ s1, s1 <:+ a ∧ s = s1 ++ b := by
  induction a with
  | nil =>
    intro s b h
    exact Or.inl (by simpa using h)
  | cons x a ih =>
    intro s b h
    rw [List.cons_append] at h
    rcases List.suffix_cons_iff.1 h with rfl | htail
    · exact Or.inr ⟨x :: a, List.suffix_refl _, by rw [List.cons_append]⟩
    · rcases ih s b htail with h1 | ⟨s1, hs1, rfl⟩
      · exact Or.inl h1
      · exact Or.inr ⟨s1, hs1.trans (List.suffix_cons x a), rfl⟩

theorem prefix_patChar_comma (t : List Char) : ∀ (s1 P : List Char),
    P <+: s1 ++ ',' :: t → (∀ c ∈ P, isPatChar c = true) → P <+: s1 := by
  intro s1
  induction s1 with
  | nil =>
    intro P hP hpc
    rcases List.prefix_cons_iff.1 (by simpa using hP) with rfl | ⟨u, rfl, hu⟩
    · exact List.nil_prefix
    · exact absurd (hpc ',' (List.mem_cons_self ',' u)) (by decide)
  | cons x s1 ih =>
    intro P hP hpc
    rw [List.cons_append] at hP
    rcases List.prefix_cons_iff.1 hP with rfl | ⟨u, rfl, hu⟩
    · exact List.nil_prefix
    · exact List.cons_prefix_cons.mpr
        ⟨rfl, ih u hu (fun c hc => hpc c (List.mem_cons_of_mem x hc))⟩

theorem PatAt_of_append_comma (s1 t : List Char) (h : PatAt (s1 ++ ',' :: t)) :
    PatAt s1 := by
  obtain ⟨P, hPpre, hPne, hPchars, hPall⟩ := PatAt_patChar_prefix _ h
  have hP1 : P <+: s1 := prefix_patChar_comma t s1 P hPpre hPchars
  obtain ⟨r2, hr2⟩ := hP1
  rw [← hr2]
  exact hPall r2

theorem joinComma_noPat : ∀ (es : List (List Char)),
    (∀ e ∈ es, ∀ s, s <:+ e → ¬ PatAt s) →
    ∀ s, s <:+ joinComma es → ¬ PatAt s := by
  intro es
  induction es with
  | nil =>
    intro _ s hs
    rw [show joinComma [] = [] from rfl] at hs
    rw [List.suffix_nil.mp hs]
    exact PatAt_nil_false
  | cons e es ih =>
    intro h s hs
    cases es with
    | nil => exact h e (List.mem_cons_self e []) s hs
    | cons e2 es2 =>
      have hre : joinComma (e :: e2 :: es2) = e ++ ',' :: joinComma (e2 :: es2) := rfl
      rw [hre] at hs
      rcases suffix_append_cases e s (',' :: joinComma (e2 :: es2)) hs with
        h1 | ⟨s1, hs1, rfl⟩
      · rcases List.suffix_cons_iff.1 h1 with rfl | htail
        · exact PatAt_comma_head_false _
        · exact ih (fun e3 he3 => h e3 (List.mem_cons_of_mem e he3)) s htail
      · intro hpat
        exact h e (List.mem_cons_self e _) s1 hs1 (PatAt_of_append_comma s1 _ hpat)

theorem map_self_of_fix (f : List Char → List Char) : ∀ (l : List (List Char)),
    (∀ a ∈ l, f a = a) → l.map f = l := by
  intro l
  induction l with
  | nil => intro _; rfl
  | cons a l ih =>
    intro h
    rw [List.map_cons, h a (List.mem_cons_self a l),
      ih (fun x hx => h x (List.mem_cons_of_mem a hx))]

/-- Claim C7: the identifier-list parser is idempotent under rejoining:
parsing the comma-join of the parsed identifier list of any input returns
exactly that list again. -/
theorem claim7_rejoin_idempotent (x : List Char) :
    parseUserStoryIds (joinComma (parseUserStoryIds x)) = parseUserStoryIds x := by
  have helem : ∀ e ∈ parseUserStoryIds x,
      (',' ∉ e) ∧ (∀ c ∈ e, isBracketQuote c = false) ∧ e ≠ [] ∧ trimL e = e ∧
        ∀ s, s <:+ e → ¬ PatAt s := by
    intro e he
    unfold parseUserStoryIds at he
    rw [List.mem_filter] at he
    obtain ⟨he1, he2⟩ := he
    obtain ⟨piece, hpiece, rfl⟩ := List.mem_map.1 he1
    have hpc : ',' ∉ piece := split_mem_no_comma _ piece hpiece
    refine ⟨?_, ?_, ?_, trimL_idem piece, ?_⟩
    · intro hcm
      exact hpc (mem_trimL piece ',' hcm)
    · intro c hcm
      have hmem : c ∈ replaceAnd (stripChars x) :=
        mem_splitOnComma_mem _ piece hpiece c (mem_trimL piece c hcm)
      unfold replaceAnd at hmem
      rcases mem_replaceAndF _ _ c hmem with hm | rfl
      · exact mem_stripChars_not_bq x c hm
      · decide
    · intro hnil
      rw [hnil] at he2
      exact absurd he2 (by decide)
    · intro s hs hpat
      obtain ⟨u, v, hdec⟩ := trimL_decomp piece
      obtain ⟨pre, hpre⟩ := hs
      have hsv : s ++ v <:+ piece := by
        rw [hdec]
        refine List.IsSuffix.trans ?_ (List.suffix_append u (trimL piece ++ v))
        exact ⟨pre, by rw [← List.append_assoc, hpre]⟩
      obtain ⟨s2, hs2, hp2⟩ := splitOnComma_pat_transfer _ piece hpiece (s ++ v) hsv
        (PatAt_append_right s v hpat)
      exact replaceAnd_noPat (stripChars x) s2 hs2 hp2
  cases hE : parseUserStoryIds x with
  | nil => rfl
  | cons e es =>
    have hprops : ∀ p ∈ e :: es,
        (',' ∉ p) ∧ (∀ c ∈ p, isBracketQuote c = false) ∧ p ≠ [] ∧ trimL p = p ∧
          ∀ s, s <:+ p → ¬ PatAt s := by
      rw [← hE]
      exact helem
    have hcf : ∀ p ∈ e :: es, ',' ∉ p := fun p hp => (hprops p hp).1
    have hstrip : stripChars (joinComma (e :: es)) = joinComma (e :: es) := by
      apply stripChars_eq_self
      intro c hcm
      rcases mem_joinComma (e :: es) c hcm with ⟨e3, he3, hce3⟩ | rfl
      · exact (hprops e3 he3).2.1 c hce3
      · decide
    have hrepl : replaceAnd (joinComma (e :: es)) = joinComma (e :: es) :=
      replaceAnd_id_of_noPat _
        (joinComma_noPat (e :: es) (fun e3 he3 => (hprops e3 he3).2.2.2.2))
    have hsplit : splitOnComma (joinComma (e :: es)) = e :: es :=
      splitOnComma_joinComma (e :: es) (by simp) hcf
    show parseUserStoryIds (joinComma (e :: es)) = e :: es
    unfold parseUserStoryIds
    rw [hstrip, hrepl, hsplit]
    rw [map_self_of_fix trimL (e :: es) (fun p hp => (hprops p hp).2.2.2.1)]
    have hall : ∀ p ∈ e :: es, decide (p.length > 0) = true := by
      intro p hp
      have hne2 := (hprops p hp).2.2.1
      cases p with
      | nil => exact absurd rfl hne2
      | cons a t => exact decide_eq_true (Nat.succ_pos t.length)
    rw [List.filter_eq_self.mpr hall]

/-- Claim C6: the identifier-list parser equals the reference algorithm
(strip brackets and quotes, replace whitespace-surrounded `and` separators by
commas, split on commas, trim, drop empties — here computed by a single-pass
reference splitter); every returned element is nonempty and trimmed, order is
preserved and no de-duplication happens (both are immediate from the
equality, whose right-hand side produces the pieces in input order one by
one); and the two concrete examples evaluate as stated. -/
theorem claim6_identifier_list_reference :
    (∀ cs : List Char, parseUserStoryIds cs = refParseUserStoryIds cs) ∧
    (∀ cs : List Char, ∀ x ∈ parseUserStoryIds cs, x ≠ [] ∧ trimL x = x) ∧
    (parseUserStoryIds "a1u1, a1u2 and a1u3".toList).map String.mk =
      ["a1u1", "a1u2", "a1u3"] ∧
    (parseUserStoryIds
      ['[', quoteS, 'a', '1', 'u', '1', quoteS, ',', ' ',
       quoteS, 'a', '1', 'u', '2', quoteS, ']']).map String.mk = ["a1u1", "a1u2"] := by
  refine ⟨parseUserStoryIds_eq_ref, ?_, by decide, by decide⟩
  intro cs x hx
  unfold parseUserStoryIds at hx
  rw [List.mem_filter] at hx
  obtain ⟨hx1, hx2⟩ := hx
  obtain ⟨piece, hpiece, rfl⟩ := List.mem_map.1 hx1
  constructor
  · intro hc
    rw [hc] at hx2
    simp at hx2
  · exact trimL_idem piece

/-- Claim C6 witness: instantiation at `"a1u1, a1u2 and a1u3"` and its first
element. -/
theorem claim6_identifier_list_reference_witness :
    ("a1u1".toList ∈ parseUserStoryIds "a1u1, a1u2 and a1u3".toList) ∧
    ("a1u1".toList ≠ [] ∧ trimL "a1u1".toList = "a1u1".toList) :=
  ⟨by decide,
    claim6_identifier_list_reference.2.1 "a1u1, a1u2 and a1u3".toList "a1u1".toList
      (by decide)⟩

/-!
Computation lemmas for the pattern pass on a description of the exact shape
`<Name> class`, used for the amended claim C3.
-/

theorem tokenizeF_nil (f : Nat) (pos : Nat) : tokenizeF f pos [] = [] := by
  cases f <;> rfl

theorem tokenizeF_step (fuel pos : Nat) (cs pre : List Char) (r0 : Char)
    (rest1 w rest2 gap rest3 : List Char)
    (h1 : takeRun (fun c => !isWordChar c) cs = (pre, r0 :: rest1))
    (h3 : takeRun isWordChar (r0 :: rest1) = (w, rest2))
    (h4 : takeRun (fun c => !isWordChar c) rest2 = (gap, rest3)) :
    tokenizeF (fuel + 1) pos cs =
      ⟨pos + pre.length, w, mkWsAfter gap⟩ ::
        tokenizeF fuel (pos + pre.length + w.length + gap.length) rest3 := by
  rw [tokenizeF]
  simp only [h1, h3, h4]

theorem tokenize_name_class (name : List Char) (n0 : Char) (name' : List Char)
    (hname : name = n0 :: name') (h0 : isWordChar n0 = true)
    (hall : ∀ c ∈ name, isWordChar c = true) :
    tokenize (name ++ ' ' :: "class".toList) =
      [⟨0, name, true⟩, ⟨name.length + 1, "class".toList, false⟩] := by
  have h1 : takeRun (fun c => !isWordChar c) (name ++ ' ' :: "class".toList) =
      ([], n0 :: (name' ++ ' ' :: "class".toList)) := by
    rw [hname, List.cons_append, takeRun_cons_neg _ _ _ (by rw [h0]; rfl)]
  have h3 : takeRun isWordChar (n0 :: (name' ++ ' ' :: "class".toList)) =
      (name, ' ' :: "class".toList) := by
    have hx := takeRun_append_all isWordChar name (' ' :: "class".toList) hall
    rw [show (takeRun isWordChar (' ' :: "class".toList)).1 = [] from by decide,
      show (takeRun isWordChar (' ' :: "class".toList)).2 = ' ' :: "class".toList
        from by decide, List.append_nil] at hx
    calc takeRun isWordChar (n0 :: (name' ++ ' ' :: "class".toList))
        = takeRun isWordChar (name ++ ' ' :: "class".toList) := by
          rw [hname, List.cons_append]
      _ = (name, ' ' :: "class".toList) := hx
  have h4 : takeRun (fun c => !isWordChar c) (' ' :: "class".toList) =
      ([' '], "class".toList) := by decide
  have h5 : takeRun (fun c => !isWordChar c) "class".toList =
      ([], 'c' :: "lass".toList) := by decide
  have h6 : takeRun isWordChar ('c' :: "lass".toList) = ("class".toList, []) := by decide
  have h7 : takeRun (fun c => !isWordChar c) ([] : List Char) = ([], []) := rfl
  have hstep1 := tokenizeF_step (name.length + 6) 0 (name ++ ' ' :: "class".toList) []
    n0 (name' ++ ' ' :: "class".toList) name (' ' :: "class".toList) [' ']
    "class".toList h1 h3 h4
  have hstep2 := tokenizeF_step (name.length + 5)
    (0 + List.length ([] : List Char) + name.length + List.length [' '])
    "class".toList [] 'c' "lass".toList "class".toList [] [] [] h5 h6 h7
  unfold tokenize
  rw [show (name ++ ' ' :: "class".toList).length + 1 = (name.length + 6) + 1
    from by simp]
  rw [hstep1]
  rw [show name.length + 6 = (name.length + 5) + 1 from by omega] at *
  rw [hstep2, tokenizeF_nil]
  have hmk1 : mkWsAfter [' '] = true := by decide
  have hmk2 : mkWsAfter ([] : List Char) = false := by decide
  rw [hmk1, hmk2]
  simp

theorem p5ScanF_no_quote : ∀ (f : Nat) (cs : List Char),
    (∀ c ∈ cs, isQuoteChar c = false) → p5ScanF f cs = [] := by
  intro f
  induction f with
  | zero => intro cs h; rfl
  | succ f ih =>
    intro cs h
    cases cs with
    | nil => rfl
    | cons c cs =>
      rw [p5ScanF.eq_def]
      simp only [h c (List.mem_cons_self c cs), Bool.false_eq_true, if_false]
      exact ih cs (fun x hx => h x (List.mem_cons_of_mem c hx))

theorem wordChar_not_quote (c : Char) (h : isWordChar c = true) :
    isQuoteChar c = false := by
  unfold isQuoteChar
  cases hd : c == quoteD
  · cases hs : c == quoteS
    · rfl
    · have hc : c = quoteS := eq_of_beq hs
      subst hc
      exact absurd h (by decide)
  · have hc : c = quoteD := eq_of_beq hd
    subst hc
    exact absurd h (by decide)

/-- Claim C3 (amended): for every name that satisfies the grammar
`^[A-Z][A-Za-z0-9_]*$`, has length greater than one, and is not excluded,
parsing the description that consists exactly of the name followed by
`" class"` yields exactly one record, whose componentName is the name and
whose componentType is `ApexClass`. -/
theorem claim3_name_class_amended (name : List Char) (hv : validName name = true) :
    parseChangesToCopadoFormat (name ++ ' ' :: "class".toList) =
      [⟨extractDefaultAction (name ++ ' ' :: "class".toList), String.mk name,
        "ApexClass", defaultModule⟩] := by
  have hv2 := hv
  unfold validName at hv2
  rw [Bool.and_eq_true, Bool.and_eq_true, Bool.and_eq_true] at hv2
  obtain ⟨⟨⟨hlen, hexc⟩, hupper⟩, hword⟩ := hv2
  obtain ⟨n0, name', rfl⟩ : ∃ n0 name', name = n0 :: name' := by
    cases name with
    | nil => exact absurd hupper (by decide)
    | cons a b => exact ⟨a, b, rfl⟩
  have hu0 : n0.isUpper = true := hupper
  have h0 : isWordChar n0 = true := by
    unfold isWordChar
    rw [hu0]
    rfl
  have hall : ∀ c ∈ n0 :: name', isWordChar c = true := by
    intro c hc
    exact List.all_eq_true.1 hword c hc
  have halpha : alphaStart (n0 :: name') = true := by
    show (n0.isUpper || n0.isLower) = true
    rw [hu0]
    rfl
  have htok := tokenize_name_class (n0 :: name') n0 name' rfl h0 hall
  have hp1 : p1Scan [⟨0, n0 :: name', true⟩,
      ⟨(n0 :: name').length + 1, "class".toList, false⟩] =
      [(n0 :: name', "class".toList)] := by
    rw [p1Scan]
    rw [if_pos (by show (alphaStart (n0 :: name') && true && isNine "class".toList) = true
                   rw [halpha]; decide)]
    rfl
  have hp2 : p2Scan [⟨0, n0 :: name', true⟩,
      ⟨(n0 :: name').length + 1, "class".toList, false⟩] =
      if isNine (n0 :: name') then [(n0 :: name', "class".toList)] else [] := by
    rw [p2Scan]
    by_cases hn : isNine (n0 :: name')
    · rw [if_pos (by show (isNine (n0 :: name') && true && alphaStart "class".toList) = true
                     rw [hn]; decide),
        if_pos hn]
      rfl
    · have hnf : isNine (n0 :: name') = false := by
        cases hx : isNine (n0 :: name')
        · rfl
        · exact absurd hx hn
      rw [if_neg (by show ¬ (isNine (n0 :: name') && true && alphaStart "class".toList) = true
                     rw [hnf]; decide),
        if_neg hn]
      rfl
  have hp3 : p3Scan [⟨0, n0 :: name', true⟩,
      ⟨(n0 :: name').length + 1, "class".toList, false⟩] =
      if isNine (n0 :: name') then [(n0 :: name', "class".toList)] else [] := by
    rw [p3Scan]
    by_cases hn : isNine (n0 :: name')
    · rw [if_pos (by show (p3PlainCond ⟨0, n0 :: name', true⟩
                       ⟨(n0 :: name').length + 1, "class".toList, false⟩) = true
                     unfold p3PlainCond
                     show (isNine (n0 :: name') && true && alphaStart "class".toList) = true
                     rw [hn]; decide),
        if_pos hn]
    · have hnf : isNine (n0 :: name') = false := by
        cases hx : isNine (n0 :: name')
        · rfl
        · exact absurd hx hn
      rw [if_neg (by show ¬ (p3PlainCond ⟨0, n0 :: name', true⟩
                       ⟨(n0 :: name').length + 1, "class".toList, false⟩) = true
                     unfold p3PlainCond
                     show ¬ (isNine (n0 :: name') && true && alphaStart "class".toList) = true
                     rw [hnf]; decide),
        if_neg hn]
  have hp4 : p4Scan [⟨0, n0 :: name', true⟩,
      ⟨(n0 :: name').length + 1, "class".toList, false⟩] = [] := rfl
  have hp5 : p5Scan ((n0 :: name') ++ ' ' :: "class".toList) = [] := by
    unfold p5Scan
    apply p5ScanF_no_quote
    intro c hc
    rcases List.mem_append.1 hc with hm | hm
    · exact wordChar_not_quote c (hall c hm)
    · have hfin : ∀ x ∈ (' ' :: "class".toList), isQuoteChar x = false := by decide
      exact hfin c hm
  have hdisp : dispose (n0 :: name') ['c', 'l', 'a', 's', 's'] =
      some (n0 :: name', "ApexClass") := by
    unfold dispose
    rw [show typeMapLookup (lowerL ['c', 'l', 'a', 's', 's']) = some "ApexClass"
      from by decide]
  have hacc : acceptedPairs ((n0 :: name') ++ ' ' :: "class".toList) =
      if isNine (n0 :: name') then
        [(n0 :: name', "ApexClass"), (n0 :: name', "ApexClass"),
         (n0 :: name', "ApexClass")]
      else [(n0 :: name', "ApexClass")] := by
    simp only [acceptedPairs]
    rw [htok, hp1, hp2, hp3, hp4, hp5]
    by_cases hn : isNine (n0 :: name')
    · simp [hn, hdisp, hv]
    · have hnf : isNine (n0 :: name') = false := by
        cases hx : isNine (n0 :: name')
        · rfl
        · exact absurd hx hn
      simp [hnf, hdisp, hv]
  have hjs : jsMapOf (if isNine (n0 :: name') then
      [(n0 :: name', "ApexClass"), (n0 :: name', "ApexClass"),
       (n0 :: name', "ApexClass")]
      else [(n0 :: name', "ApexClass")]) = [(n0 :: name', "ApexClass")] := by
    by_cases hn : isNine (n0 :: name')
    · simp [hn, jsMapOf, jsSet]
    · have hnf : isNine (n0 :: name') = false := by
        cases hx : isNine (n0 :: name')
        · rfl
        · exact absurd hx hn
      simp [hnf, jsMapOf, jsSet]
  have hne : acceptedPairs ((n0 :: name') ++ ' ' :: "class".toList) ≠ [] := by
    rw [hacc]
    by_cases hn : isNine (n0 :: name')
    · simp [hn]
    · have hnf : isNine (n0 :: name') = false := by
        cases hx : isNine (n0 :: name')
        · rfl
        · exact absurd hx hn
      simp [hnf]
  rw [parse_of_accepted_ne _ hne, hacc, hjs]
  rfl

/-- Claim C3 amended witness: instantiation at the name `PaymentService`. -/
theorem claim3_name_class_amended_witness :
    validName "PaymentService".toList = true ∧
    parseChangesToCopadoFormat ("PaymentService".toList ++ ' ' :: "class".toList) =
      [⟨extractDefaultAction ("PaymentService".toList ++ ' ' :: "class".toList),
        String.mk "PaymentService".toList, "ApexClass", defaultModule⟩] :=
  ⟨by decide, claim3_name_class_amended "PaymentService".toList (by decide)⟩

/-- Claim C8: status classification is a pure function of the lower-cased
status string against a fixed five-bucket dictionary, with the fixed
per-bucket next-step messages; `"Success"` in any case maps to the completed
bucket and `"bogus"` to the unknown bucket. -/
theorem claim8_status_classification :
    (∀ s1 s2 : String, lowerStr s1 = lowerStr s2 →
      classifyJobStatus s1 = classifyJobStatus s2) ∧
    (∀ s : String,
      (lowerStr s = "completed" ∨ lowerStr s = "success" →
        classifyJobStatus s = completedReport) ∧
      (lowerStr s = "failed" ∨ lowerStr s = "error" →
        classifyJobStatus s = failedReport) ∧
      (lowerStr s = "in progress" ∨ lowerStr s = "running" →
        classifyJobStatus s = inProgressReport) ∧
      (lowerStr s = "not started" ∨ lowerStr s = "queued" →
        classifyJobStatus s = queuedReport) ∧
      (lowerStr s ≠ "completed" → lowerStr s ≠ "success" → lowerStr s ≠ "failed" →
        lowerStr s ≠ "error" → lowerStr s ≠ "in progress" → lowerStr s ≠ "running" →
        lowerStr s ≠ "not started" → lowerStr s ≠ "queued" →
        classifyJobStatus s = unknownReport)) ∧
    classifyJobStatus "Success" = completedReport ∧
    classifyJobStatus "SUCCESS" = completedReport ∧
    classifyJobStatus "bogus" = unknownReport := by
  refine ⟨?_, ?_, by decide, by decide, by decide⟩
  · intro s1 s2 h
    unfold classifyJobStatus
    rw [h]
  · intro s
    unfold classifyJobStatus
    refine ⟨?_, ?_, ?_, ?_, ?_⟩
    · rintro (h | h) <;> rw [h] <;> decide
    · rintro (h | h) <;> rw [h] <;> decide
    · rintro (h | h) <;> rw [h] <;> decide
    · rintro (h | h) <;> rw [h] <;> decide
    · intro h1 h2 h3 h4 h5 h6 h7 h8
      simp [h1, h2, h3, h4, h5, h6, h7, h8]

/-- Claim C8 witness: instantiation at `"Success"`. -/
theorem claim8_status_classification_witness :
    lowerStr "Success" = "success" ∧ classifyJobStatus "Success" = completedReport :=
  ⟨by decide, (claim8_status_classification.2.1 "Success").1 (Or.inr (by decide))⟩

/-- Claim C9: the default action of a parse is chosen by substring
containment against the action keywords in fixed map order and applies to
every record of the call; `"the RemovedItems class"`, whose only keyword
occurrence is `removed` inside the component name, yields action `Delete`,
and a text in which `removed` occurs before `added` still yields `Add`
because the map order, not the text order, decides. -/
theorem claim9_default_action_by_containment :
    (∀ cs r, r ∈ parseChangesToCopadoFormat cs → r.a = extractDefaultAction cs) ∧
    parseChangesToCopadoFormat "the RemovedItems class".toList =
      [⟨"Delete", "RemovedItems", "ApexClass", "force-app/main/default"⟩] ∧
    containsSub "removed".toList (lowerL "the RemovedItems class".toList) = true ∧
    extractDefaultAction "removed the Foo class and added Bar class".toList = "Add" :=
  ⟨parse_records_action, by decide, by decide, by decide⟩

/-- Claim C9 witness: instantiation at `"the RemovedItems class"` and its
single record. -/
theorem claim9_default_action_by_containment_witness :
    (⟨"Delete", "RemovedItems", "ApexClass", "force-app/main/default"⟩ : ChangeRecord) ∈
      parseChangesToCopadoFormat "the RemovedItems class".toList ∧
    ChangeRecord.a ⟨"Delete", "RemovedItems", "ApexClass", "force-app/main/default"⟩ =
      extractDefaultAction "the RemovedItems class".toList :=
  ⟨by decide,
    claim9_default_action_by_containment.1 "the RemovedItems class".toList
      ⟨"Delete", "RemovedItems", "ApexClass", "force-app/main/default"⟩ (by decide)⟩

/-- Claim C10: in `commit_changes`, an absent or empty `commitMessage`
resolves the payload message to `"Commit changes: "` followed by the raw
description, and a nonempty `commitMessage` is used verbatim. -/
theorem claim10_commit_message_resolution :
    ∀ us cd tok : String,
      requestMessage (commitRequest us cd none tok) = some ("Commit changes: " ++ cd) ∧
      requestMessage (commitRequest us cd (some "") tok) =
        some ("Commit changes: " ++ cd) ∧
      ∀ m : String, m ≠ "" → requestMessage (commitRequest us cd (some m) tok) = some m := by
  intro us cd tok
  refine ⟨rfl, ?_, ?_⟩
  · simp [commitRequest, requestMessage, jsOrStr]
  · intro m hm
    simp [commitRequest, requestMessage, jsOrStr, hm]

/-- Claim C10 witness: instantiation at concrete inputs. -/
theorem claim10_commit_message_resolution_witness :
    ("fix races" : String) ≠ "" ∧
    requestMessage (commitRequest "a1u7" "changed the Foo class" (some "fix races") "k") =
      some "fix races" :=
  ⟨by decide,
    (claim10_commit_message_resolution "a1u7" "changed the Foo class" "k").2.2 "fix races"
      (by decide)⟩

end Copado
